import Mathlib

/-!
Verification of the pr-reviewer-plugin core: the provider-fallback router
(`src/services/modelRouter.js`, `src/services/modelRouter_optimized.js`),
the tolerant structured-output decoder (`extractJSON`) and the document
sanitizer (`validateReview`, `createDefaultReview`) of the review route.

JavaScript strings are modelled as `List Char` (sequences of Unicode scalar
values), JavaScript numbers as `Int` (every number the modelled code paths
produce or compare is integral), and JSON/JS values as the inductive `JSVal`.
`decide`/`rfl` witnesses evaluate every definition on concrete inputs.
-/

namespace PRReviewer

/-- White-space class used by JavaScript's `String.prototype.trim` and the
regex class `\s`, restricted to the characters that can actually occur in
the modelled code paths (ASCII white space and NBSP). -/
def jsWsChar (c : Char) : Bool :=
  c = ' ' || c = '\t' || c = '\n' || c = '\r' || c = '\x0b' || c = '\x0c' || c = ' '

/-- JavaScript `String.prototype.trim`: drop white space from both ends. -/
def jsTrim (s : List Char) : List Char :=
  ((s.dropWhile jsWsChar).reverse.dropWhile jsWsChar).reverse

theorem jsTrim_eq_self {s : List Char}
    (h1 : ∀ c, s.head? = some c → jsWsChar c = false)
    (h2 : ∀ c, s.getLast? = some c → jsWsChar c = false) :
    jsTrim s = s := by
  cases s with
  | nil => rfl
  | cons a t =>
    have ha : jsWsChar a = false := h1 a rfl
    unfold jsTrim
    rw [List.dropWhile_cons_of_neg (by simp [ha])]
    have : (a :: t).reverse.dropWhile jsWsChar = (a :: t).reverse := by
      cases hrev : (a :: t).reverse with
      | nil => simp at hrev
      | cons b u =>
        have hb : (a :: t).getLast? = some b := by
          rw [← List.head?_reverse]; rw [hrev]; rfl
        rw [List.dropWhile_cons_of_neg (by simp [h2 b hb])]
    rw [this, List.reverse_reverse]

theorem jsTrim_nil : jsTrim [] = [] := rfl

/-- Dropping leading white space commutes past a white-space head. -/
theorem jsTrim_cons_ws {c : Char} (hc : jsWsChar c = true) (s : List Char) :
    jsTrim (c :: s) = jsTrim s := by
  unfold jsTrim
  rw [List.dropWhile_cons_of_pos hc]

/-- Dropping a trailing white-space character does not change `jsTrim`. -/
theorem jsTrim_append_ws {c : Char} (hc : jsWsChar c = true) (s : List Char) :
    jsTrim (s ++ [c]) = jsTrim s := by
  unfold jsTrim
  rw [List.dropWhile_append]
  by_cases h : (s.dropWhile jsWsChar).isEmpty
  · simp only [h, if_pos]
    simp only [List.isEmpty_iff] at h
    rw [h]
    simp [List.dropWhile_cons_of_pos hc]
  · simp only [h, if_neg, Bool.false_eq_true, not_false_iff]
    rw [List.reverse_append]
    simp only [List.reverse_cons, List.reverse_nil, List.nil_append, List.singleton_append]
    rw [List.dropWhile_cons_of_pos hc]

/-!
## JavaScript / JSON values

`JSVal` models the values the decoded JSON and the route inputs range over.
Object fields keep insertion order; a duplicate key's later binding wins on
property access, as in JavaScript.
-/

/-- A JavaScript value as produced by `JSON.parse` (plus `null`). -/
inductive JSVal where
  | null : JSVal
  | bool (b : Bool) : JSVal
  | num (n : Int) : JSVal
  | str (s : List Char) : JSVal
  | arr (elems : List JSVal) : JSVal
  | obj (fields : List (List Char × JSVal)) : JSVal

/-- JavaScript property access `o[k]` on an object's field list: the last
binding of a key wins, a missing key is `none` (`undefined`). -/
def getProp (fields : List (List Char × JSVal)) (k : List Char) : Option JSVal :=
  fields.foldl (fun acc f => if f.1 = k then some f.2 else acc) none

/-- The own enumerable properties of a value: objects expose their fields,
arrays have none of the accessed names, primitives have no properties. -/
def propsOf : JSVal → Option (List (List Char × JSVal))
  | .obj fields => some fields
  | .arr _ => some []
  | _ => none

/-- JavaScript property access `v.k` on an arbitrary value: only plain
objects yield a value here (arrays have none of the accessed names;
primitives and `null` yield `undefined`). -/
def jsProp (v : JSVal) (k : List Char) : Option JSVal :=
  match v with
  | .obj fields => getProp fields k
  | _ => none

/-- `v && typeof v === "object"`: `null` is falsy, arrays and objects pass. -/
def isObjectLike : JSVal → Bool
  | .obj _ => true
  | .arr _ => true
  | _ => false

/-!
## Document sanitizer (`createDefaultReview` / `validateReview`, review route)
-/

/-- The canonical bounded review document the sanitizer produces. -/
structure ReviewDoc where
  summary : List Char
  comments : List JSVal
  patches : List JSVal
  testCases : List (List Char)
  status : String

/-- `createDefaultReview` of the review route. -/
def createDefaultReview : ReviewDoc :=
  { summary := "Automated code review completed. Please review for accuracy.".data
    comments := []
    patches := []
    testCases := []
    status := "default" }

/-- `typeof v.k === "string" && v.k.trim().length > 0` for an arbitrary value. -/
def strPropNonEmpty (v : JSVal) (k : List Char) : Bool :=
  match jsProp v k with
  | some (.str s) => !(jsTrim s).isEmpty
  | _ => false

/-- The `comments` filter of `validateReview`: an entry is kept iff it is a
truthy object with non-empty (after trim) string fields `file` and `comment`. -/
def commentEntryOk (c : JSVal) : Bool :=
  isObjectLike c && strPropNonEmpty c "file".data && strPropNonEmpty c "comment".data

/-- The `patches` filter of `validateReview`: same pattern on `file`/`diff`. -/
def patchEntryOk (p : JSVal) : Bool :=
  isObjectLike p && strPropNonEmpty p "file".data && strPropNonEmpty p "diff".data

/-- The `testCases` filter: keep non-empty (after trim) strings. -/
def testCaseOk (tc : JSVal) : Bool :=
  match tc with
  | .str s => !(jsTrim s).isEmpty
  | _ => false

/-- `tc.substring(0, 500)` applied to the retained test-case strings. -/
def testCaseTrunc (tc : JSVal) : List Char :=
  match tc with
  | .str s => s.take 500
  | _ => []

/-- `validateReview` of the review route: total sanitization of an arbitrary
decoded value into a `ReviewDoc`. The body of the source's `try` block cannot
raise (it is a pure field-by-field construction), so the `catch` fallback to
the default document is unreachable and has no counterpart here. -/
def validateReview (data : JSVal) : ReviewDoc :=
  if isObjectLike data then
    { summary :=
        match jsProp data "summary".data with
        | some (.str s) => (jsTrim s).take 3000
        | _ => "Code review completed.".data
      comments :=
        match jsProp data "comments".data with
        | some (.arr xs) => (xs.filter commentEntryOk).take 100
        | _ => []
      patches :=
        match jsProp data "patches".data with
        | some (.arr xs) => (xs.filter patchEntryOk).take 30
        | _ => []
      testCases :=
        match jsProp data "testCases".data with
        | some (.arr xs) => ((xs.filter testCaseOk).map testCaseTrunc).take 20
        | _ => []
      status := "validated" }
  else createDefaultReview

theorem jsTrim_replicate_ws {c : Char} (hc : jsWsChar c = true) (n : Nat) :
    jsTrim (List.replicate n c) = [] := by
  induction n with
  | zero => rfl
  | succ m ih => rw [List.replicate_succ, jsTrim_cons_ws hc, ih]

theorem jsTrim_replicate_nonws {c : Char} (hc : jsWsChar c = false) (n : Nat) :
    jsTrim (List.replicate n c) = List.replicate n c := by
  apply jsTrim_eq_self
  · intro d hd
    cases n with
    | zero => simp at hd
    | succ m =>
      rw [List.replicate_succ] at hd
      cases hd; exact hc
  · intro d hd
    cases n with
    | zero => simp at hd
    | succ m =>
      have : (List.replicate (m + 1) c).getLast? = some c := by
        rw [List.getLast?_eq_head?_reverse, List.reverse_replicate]
        rw [List.replicate_succ]; rfl
      rw [this] at hd
      cases hd; exact hc

set_option maxRecDepth 8000 in
/-- Claim C3 (counterexample): a 5000-character summary string consisting
entirely of spaces is sanitized to a summary of length 0, not 3000: the
source trims before truncating, so a 5000-character input does not force a
3000-character output. -/
theorem claim_C3_counterexample :
    (List.replicate 5000 ' ').length = 5000 ∧
    (validateReview (.obj [("summary".data, .str (List.replicate 5000 ' '))])).summary.length
      ≠ 3000 := by
  constructor
  · rw [List.length_replicate]
  · show ((jsTrim (List.replicate 5000 ' ')).take 3000).length ≠ 3000
    rw [jsTrim_replicate_ws (show jsWsChar ' ' = true from rfl)]
    decide

/-- Claim C3 (amended): for every summary string of 5000 characters with no
leading or trailing white space (so that trimming leaves it unchanged), the
sanitized document's summary has length exactly 3000; in general the length
is `min 3000 (length of the trimmed string)`. -/
theorem claim_C3 (data : JSVal) (s : List Char)
    (hd : isObjectLike data = true)
    (hp : jsProp data "summary".data = some (.str s))
    (h1 : jsTrim s = s) (h2 : s.length = 5000) :
    (validateReview data).summary.length = 3000 := by
  unfold validateReview
  rw [if_pos hd]
  show ((match jsProp data "summary".data with
        | some (.str s) => (jsTrim s).take 3000
        | _ => "Code review completed.".data).length) = 3000
  rw [hp]
  show ((jsTrim s).take 3000).length = 3000
  rw [h1, List.length_take, h2]
  decide

/-- Claim C3 witness: a concrete 5000-character summary with no surrounding
white space is truncated to exactly 3000 characters. -/
theorem claim_C3_witness :
    (validateReview (.obj [("summary".data, .str (List.replicate 5000 'a'))])).summary.length
      = 3000 :=
  claim_C3 (.obj [("summary".data, .str (List.replicate 5000 'a'))])
    (List.replicate 5000 'a') rfl rfl
    (jsTrim_replicate_nonws (by decide) 5000) (by rw [List.length_replicate])

theorem testCaseTrunc_length (tc : JSVal) : (testCaseTrunc tc).length ≤ 500 := by
  cases tc <;> simp [testCaseTrunc]

/-- Claim C5: the sanitizer is total (it is a total Lean function on every
`JSVal`, mirroring that the source never throws) and every result satisfies
the ReviewDocument invariants: at most 100 comments, 30 patches, 20 test
cases, a summary of at most 3000 characters, each test case at most 500
characters, every retained comment/patch entry an object with non-empty
string `file` and payload fields, and a status of "validated" or "default". -/
theorem claim_C5 (data : JSVal) :
    (validateReview data).comments.length ≤ 100 ∧
    (validateReview data).patches.length ≤ 30 ∧
    (validateReview data).testCases.length ≤ 20 ∧
    (validateReview data).summary.length ≤ 3000 ∧
    (∀ tc ∈ (validateReview data).testCases, tc.length ≤ 500) ∧
    (∀ c ∈ (validateReview data).comments, commentEntryOk c = true) ∧
    (∀ p ∈ (validateReview data).patches, patchEntryOk p = true) ∧
    ((validateReview data).status = "validated" ∨ (validateReview data).status = "default") := by
  unfold validateReview
  by_cases hd : isObjectLike data = true
  · rw [if_pos hd]
    refine ⟨?_, ?_, ?_, ?_, ?_, ?_, ?_, ?_⟩
    · show (match jsProp data "comments".data with
          | some (.arr xs) => (xs.filter commentEntryOk).take 100
          | _ => []).length ≤ 100
      split
      · exact List.length_take_le _ _
      · simp
    · show (match jsProp data "patches".data with
          | some (.arr xs) => (xs.filter patchEntryOk).take 30
          | _ => []).length ≤ 30
      split
      · exact List.length_take_le _ _
      · simp
    · show (match jsProp data "testCases".data with
          | some (.arr xs) => ((xs.filter testCaseOk).map testCaseTrunc).take 20
          | _ => []).length ≤ 20
      split
      · exact List.length_take_le _ _
      · simp
    · show (match jsProp data "summary".data with
          | some (.str s) => (jsTrim s).take 3000
          | _ => "Code review completed.".data).length ≤ 3000
      split
      · exact List.length_take_le _ _
      · decide
    · show ∀ tc ∈ (match jsProp data "testCases".data with
          | some (.arr xs) => ((xs.filter testCaseOk).map testCaseTrunc).take 20
          | _ => []), tc.length ≤ 500
      intro tc htc
      split at htc
      · obtain ⟨x, _, rfl⟩ := List.mem_map.mp (List.take_subset 20 _ htc)
        exact testCaseTrunc_length x
      · simp at htc
    · show ∀ c ∈ (match jsProp data "comments".data with
          | some (.arr xs) => (xs.filter commentEntryOk).take 100
          | _ => []), commentEntryOk c = true
      intro c hc
      split at hc
      · exact List.of_mem_filter (List.take_subset 100 _ hc)
      · simp at hc
    · show ∀ p ∈ (match jsProp data "patches".data with
          | some (.arr xs) => (xs.filter patchEntryOk).take 30
          | _ => []), patchEntryOk p = true
      intro p hp
      split at hp
      · exact List.of_mem_filter (List.take_subset 30 _ hp)
      · simp at hp
    · left; rfl
  · rw [if_neg hd]
    exact ⟨by decide, by decide, by decide, by decide, by decide, by decide, by decide,
      Or.inr rfl⟩

/-- Claim C10: every retained `comments`/`patches` entry is returned as the
original entry object, unchanged: the sanitized arrays are sublists of the
input arrays (filtering and capping only), so extra fields such as a numeric
`line` are preserved and no retained string is trimmed or truncated. -/
theorem claim_C10 (data : JSVal) (cs ps : List JSVal)
    (hc : jsProp data "comments".data = some (.arr cs))
    (hp : jsProp data "patches".data = some (.arr ps)) :
    (validateReview data).comments.Sublist cs ∧
    (validateReview data).patches.Sublist ps := by
  have hobj : isObjectLike data = true := by
    cases data <;> first | rfl | simp [jsProp] at hc
  unfold validateReview
  rw [if_pos hobj]
  constructor
  · show (match jsProp data "comments".data with
        | some (.arr xs) => (xs.filter commentEntryOk).take 100
        | _ => []).Sublist cs
    rw [hc]
    exact (List.take_sublist _ _).trans (List.filter_sublist _)
  · show (match jsProp data "patches".data with
        | some (.arr xs) => (xs.filter patchEntryOk).take 30
        | _ => []).Sublist ps
    rw [hp]
    exact (List.take_sublist _ _).trans (List.filter_sublist _)

/-- Claim C10 witness: a comment entry with an extra numeric `line` field is
retained verbatim (the sanitized array is a sublist of the input array, and
here it is in fact the whole singleton input, extra field included). -/
theorem claim_C10_witness :
    (validateReview (.obj
      [("comments".data, .arr [.obj [("file".data, .str "a.js".data),
                                     ("comment".data, .str "ok".data),
                                     ("line".data, .num 3)]]),
       ("patches".data, .arr [])])).comments.Sublist
      [.obj [("file".data, .str "a.js".data),
             ("comment".data, .str "ok".data),
             ("line".data, .num 3)]] :=
  (claim_C10 (.obj
      [("comments".data, .arr [.obj [("file".data, .str "a.js".data),
                                     ("comment".data, .str "ok".data),
                                     ("line".data, .num 3)]]),
       ("patches".data, .arr [])])
    [.obj [("file".data, .str "a.js".data),
           ("comment".data, .str "ok".data),
           ("line".data, .num 3)]]
    [] rfl rfl).1

/-!
## Provider-fallback router (`modelRouter.js`, `modelRouter_optimized.js`)

The network is abstracted by an oracle `call : Attempt → Except String Response`
giving the normalized outcome of invoking a provider client for one attempt
(the error string is the thrown error's message). Which clients were lazily
initialized (credential present) is the `Clients` record. Each run returns,
next to its result, the trace of attempts whose client was actually invoked.
-/

inductive Provider where
  | gemini
  | groq
  | openai
  | ollama
  deriving DecidableEq

structure Attempt where
  provider : Provider
  model : String
  deriving DecidableEq

/-- `FALLBACK_MODELS`: the fixed, ordered fallback list (same in both routers). -/
def FALLBACK_MODELS : List Attempt :=
  [⟨.gemini, "gemini-2.0-flash"⟩,
   ⟨.gemini, "gemini-2.0-pro"⟩,
   ⟨.groq, "llama-3.1-70b-versatile"⟩,
   ⟨.openai, "gpt-4.1-mini"⟩,
   ⟨.ollama, "llama3"⟩]

/-- Which API clients were initialized (a credential was present). -/
structure Clients where
  gemini : Bool
  groq : Bool
  openai : Bool
  deriving DecidableEq

/-- The guard of each provider's branch in the fallback loop: the remote
branches require their client to be non-null, the local ollama branch has no
client guard and is always entered. -/
def routedAttempt (cl : Clients) (a : Attempt) : Bool :=
  match a.provider with
  | .gemini => cl.gemini
  | .groq => cl.groq
  | .openai => cl.openai
  | .ollama => true

/-- One choice of the canonical response shape (`message.content`; an absent
message/content is modelled by empty content, which fails validation just as
it does in the source). -/
structure Choice where
  content : List Char
  deriving DecidableEq

/-- The canonical `GenerationResult` shape every provider branch produces. -/
structure Response where
  choices : List Choice
  deriving DecidableEq

/-- `validateResponse` (boolean form, as in the optimized router; the base
router throws on the same condition): `choices[0].message.content` exists and
is non-empty after trimming. -/
def validateResponse (r : Response) : Bool :=
  match r.choices with
  | [] => false
  | c :: _ => !(jsTrim c.content).isEmpty

/-- Whether one attempt fails: its client call throws, or the response does
not validate. -/
def attemptFails (call : Attempt → Except String Response) (a : Attempt) : Bool :=
  match call a with
  | .error _ => true
  | .ok r => !validateResponse r

/-- The failure record the optimized router appends for a failed attempt:
`provider:model (message)`, kept here as the pair (attempt, reason). -/
def failureEntry (call : Attempt → Except String Response) (a : Attempt) :
    Attempt × String :=
  match call a with
  | .error e => (a, e)
  | .ok _ => (a, "Invalid response structure")

/-- The errors `callModel` can fail with. `invalid` models the
input-validation throws before the loop; `allFailed` is the base router's
constant all-providers-failed error (it carries no per-attempt data);
`aggregate` is the optimized router's error built from `failedAttempts`. -/
inductive CallError where
  | invalid (msg : String)
  | allFailed
  | aggregate (failures : List (Attempt × String))
  deriving DecidableEq

/-- `validateMessages` body, per message: `!msg || typeof msg !== "object"`,
then `!msg.content || typeof msg.content !== "string"`, then the 100KB cap. -/
def messageError (m : JSVal) : Option String :=
  match m with
  | .obj fields =>
    match getProp fields "content".data with
    | some (.str s) =>
      if s.isEmpty then some "each message must have a non-empty string content field"
      else if s.length > 100000 then some "message content exceeds maximum length (100KB)"
      else none
    | _ => some "each message must have a non-empty string content field"
  | .arr _ => some "each message must have a non-empty string content field"
  | _ => some "each message must be an object"

def firstMessageError : List JSVal → Option String
  | [] => none
  | m :: rest =>
    match messageError m with
    | some e => some e
    | none => firstMessageError rest

/-- `validateMessages` of the base router: `none` means the input passed. -/
def validateMessages (messages : JSVal) : Option String :=
  match messages with
  | .arr [] => some "messages must be a non-empty array"
  | .arr ms => firstMessageError ms
  | _ => some "messages must be a non-empty array"

/-- `m.content` as read by the prompt join (after validation it is always a
string). -/
def contentOf (m : JSVal) : List Char :=
  match m with
  | .obj fields =>
    match getProp fields "content".data with
    | some (.str s) => s
    | _ => []
  | _ => []

/-- `messages.map(m => m.content).join("\n")`. -/
def joinPrompt (ms : List JSVal) : List Char :=
  List.intercalate ['\n'] (ms.map contentOf)

def messagesList : JSVal → List JSVal
  | .arr ms => ms
  | _ => []

/-- The fixed placeholder returned in mock mode by the base router. -/
def mockResponse : Response :=
  ⟨[⟨"Mock response (MOCK_MODE=true)".data⟩]⟩

namespace ModelRouter

/-- The fallback `for` loop of the base router (`modelRouter.js`): skip
attempts whose client is not initialized, invoke the client otherwise,
return the first response that validates, swallow failures and continue, and
throw the constant all-failed error when the list is exhausted. The second
component is the trace of invoked attempts. -/
def fallbackLoop (cl : Clients) (call : Attempt → Except String Response) :
    List Attempt → Except CallError Response × List Attempt
  | [] => (.error .allFailed, [])
  | a :: rest =>
    if routedAttempt cl a then
      match call a with
      | .ok r =>
        if validateResponse r then (.ok r, [a])
        else
          let next := fallbackLoop cl call rest
          (next.1, a :: next.2)
      | .error _ =>
        let next := fallbackLoop cl call rest
        (next.1, a :: next.2)
    else fallbackLoop cl call rest

/-- `callModel` of the base router: validate the messages, validate
`maxTokens`, build the prompt, short-circuit in mock mode, then run the
fallback loop. `modelName` is accepted and ignored by the loop, as in the
source. -/
def callModel (mock : Bool) (cl : Clients) (call : Attempt → Except String Response)
    (_modelName : String) (messages : JSVal) (maxTokens : JSVal) :
    Except CallError Response × List Attempt :=
  match validateMessages messages with
  | some e => (.error (.invalid e), [])
  | none =>
    match maxTokens with
    | .num n =>
      if n < 1 then (.error (.invalid "maxTokens must be a positive number"), [])
      else
        let prompt := joinPrompt (messagesList messages)
        if (jsTrim prompt).isEmpty then
          (.error (.invalid "Empty prompt generated from messages"), [])
        else if mock then (.ok mockResponse, [])
        else fallbackLoop cl call FALLBACK_MODELS
    | _ => (.error (.invalid "maxTokens must be a positive number"), [])

end ModelRouter

namespace ModelRouterOptimized

/-- The fallback loop of the optimized router (`modelRouter_optimized.js`):
as the base loop, but a skipped attempt logs and `continue`s without a
record, and every failed attempt appends `provider:model (reason)` to
`failedAttempts`; exhaustion throws an error enumerating `failedAttempts`. -/
def fallbackLoop (cl : Clients) (call : Attempt → Except String Response) :
    List Attempt → List (Attempt × String) → Except CallError Response
  | [], acc => .error (.aggregate acc)
  | a :: rest, acc =>
    if routedAttempt cl a then
      match call a with
      | .error e => fallbackLoop cl call rest (acc ++ [(a, e)])
      | .ok r =>
        if validateResponse r then .ok r
        else fallbackLoop cl call rest (acc ++ [(a, "Invalid response structure")])
    else fallbackLoop cl call rest acc

/-- `callModel` of the optimized router: it validates only that `messages`
is a non-empty array and that the joined prompt is non-empty (no `maxTokens`
check), short-circuits in mock mode, and runs the accumulating loop. -/
def callModel (mock : Bool) (cl : Clients) (call : Attempt → Except String Response)
    (_modelName : String) (messages : JSVal) (_maxTokens : Int) :
    Except CallError Response :=
  match messages with
  | .arr [] => .error (.invalid "Invalid messages array: must be non-empty array")
  | .arr ms =>
    let prompt := joinPrompt ms
    if (jsTrim prompt).isEmpty then .error (.invalid "Empty prompt: no content in messages")
    else if mock then
      .ok ⟨[⟨("Mock response generated. Enable real API by setting MOCK_MODE=false and providing valid API keys.").data⟩]⟩
    else fallbackLoop cl call FALLBACK_MODELS []
  | _ => .error (.invalid "Invalid messages array: must be non-empty array")

end ModelRouterOptimized

/-!
## Per-provider request shapes (token clamping, claim C2)

What each provider branch of the base router actually sends (the optimized
router's helpers build the same shapes). The float `temperature: 0.7` field
is outside the model (floating point) and irrelevant to the claims.
-/

/-- The Groq call is issued with `max_tokens: Math.min(maxTokens, 2000)`. -/
structure GroqRequest where
  model : String
  prompt : List Char
  max_tokens : Nat
  deriving DecidableEq

def groqRequest (a : Attempt) (prompt : List Char) (maxTokens : Nat) : GroqRequest :=
  { model := a.model, prompt := prompt, max_tokens := min maxTokens 2000 }

/-- The OpenAI call is issued with `max_tokens: Math.min(maxTokens, 2000)`. -/
structure OpenAIRequest where
  model : String
  prompt : List Char
  max_tokens : Nat
  deriving DecidableEq

def openaiRequest (a : Attempt) (prompt : List Char) (maxTokens : Nat) : OpenAIRequest :=
  { model := a.model, prompt := prompt, max_tokens := min maxTokens 2000 }

/-- The Gemini call is `model.generateContent(prompt)`: the request carries
no token-budget parameter at all. -/
structure GeminiRequest where
  model : String
  prompt : List Char
  deriving DecidableEq

def geminiRequest (a : Attempt) (prompt : List Char) : GeminiRequest :=
  { model := a.model, prompt := prompt }

/-- The Ollama fetch body is `JSON.stringify(\x7b model, prompt, stream: false \x7d)`:
no token-budget parameter. -/
structure OllamaRequest where
  model : String
  prompt : List Char
  stream : Bool
  deriving DecidableEq

def ollamaRequest (a : Attempt) (prompt : List Char) : OllamaRequest :=
  { model := a.model, prompt := prompt, stream := false }

/-- The max-output-token parameter a provider's issued request carries, read
off the request constructors above (`none` = the request has no such field). -/
def issuedTokenBudget (p : Provider) (maxTokens : Nat) : Option Nat :=
  match p with
  | .groq => some (groqRequest ⟨.groq, "llama-3.1-70b-versatile"⟩ [] maxTokens).max_tokens
  | .openai => some (openaiRequest ⟨.openai, "gpt-4.1-mini"⟩ [] maxTokens).max_tokens
  | .gemini => none
  | .ollama => none

/-- Claim C2 (counterexample): the Gemini branch issues its call with no
max-output-token parameter at all, so for `maxTokens = 50` no budget
`min(50, 2000)` is applied to the issued Gemini call (nor to Ollama). -/
theorem claim_C2_counterexample :
    issuedTokenBudget .gemini 50 ≠ some (min 50 2000) ∧
    issuedTokenBudget .ollama 50 ≠ some (min 50 2000) := by
  exact ⟨by decide, by decide⟩

/-- Claim C2 (amended): the clamp `min(maxTokens, 2000)` is applied to the
issued request exactly for the groq and openai branches; the gemini and
ollama branches issue their calls without any max-output-token parameter. -/
theorem claim_C2 (mt : Nat) :
    issuedTokenBudget .groq mt = some (min mt 2000) ∧
    issuedTokenBudget .openai mt = some (min mt 2000) ∧
    issuedTokenBudget .gemini mt = none ∧
    issuedTokenBudget .ollama mt = none :=
  ⟨rfl, rfl, rfl, rfl⟩

/-!
## Claim C1: aggregate-failure enumeration
-/

/-- When every routed attempt in `l` fails, the optimized loop exhausts `l`
and returns the aggregate error extending `acc` by exactly one failure
record per routed attempt, in order; skipped attempts contribute nothing. -/
theorem ModelRouterOptimized.fallbackLoop_all_fail (cl : Clients)
    (call : Attempt → Except String Response) (l : List Attempt)
    (acc : List (Attempt × String))
    (h : ∀ a ∈ l, routedAttempt cl a = true → attemptFails call a = true) :
    ModelRouterOptimized.fallbackLoop cl call l acc =
      .error (.aggregate (acc ++ (l.filter (routedAttempt cl)).map (failureEntry call))) := by
  induction l generalizing acc with
  | nil => simp [ModelRouterOptimized.fallbackLoop]
  | cons a rest ih =>
    have hrest : ∀ b ∈ rest, routedAttempt cl b = true → attemptFails call b = true :=
      fun b hb => h b (List.mem_cons_of_mem a hb)
    by_cases hr : routedAttempt cl a = true
    · have hf : attemptFails call a = true := h a (List.mem_cons_self a rest) hr
      unfold ModelRouterOptimized.fallbackLoop
      rw [if_pos hr]
      unfold attemptFails at hf
      cases hcall : call a with
      | error e =>
        show ModelRouterOptimized.fallbackLoop cl call rest (acc ++ [(a, e)]) = _
        rw [ih _ hrest, List.filter_cons_of_pos hr]
        simp [failureEntry, hcall]
      | ok r =>
        rw [hcall] at hf
        have hf' : (!validateResponse r) = true := hf
        have hv : validateResponse r = false := by
          cases hvr : validateResponse r
          · rfl
          · rw [hvr] at hf'; simp at hf' 
        show (if validateResponse r = true then Except.ok r
          else ModelRouterOptimized.fallbackLoop cl call rest
            (acc ++ [(a, "Invalid response structure")])) = _
        rw [if_neg (by simp [hv])]
        rw [ih _ hrest, List.filter_cons_of_pos hr]
        simp [failureEntry, hcall]
    · have hr' : routedAttempt cl a = false := by
        cases hx : routedAttempt cl a
        · rfl
        · exact absurd hx hr
      unfold ModelRouterOptimized.fallbackLoop
      rw [if_neg (by simp [hr'])]
      rw [ih _ hrest]
      rw [List.filter_cons_of_neg (by simp [hr'])]

/-- Claim C1 (counterexample, against `modelRouter.js`'s `callModel`): when
every attempt fails, the base router throws the one constant
all-providers-failed error. Two runs whose attempted-provider sets differ
(only Gemini initialized vs. only Groq initialized; their invocation traces
differ) fail with the identical error value, so that error cannot enumerate
one (provider, model, reason) entry per attempted provider. -/
theorem claim_C1_counterexample :
    (ModelRouter.callModel false ⟨true, false, false⟩ (fun _ => .error "network error")
        "gemini-2.0-pro" (.arr [.obj [("content".data, .str "hello".data)]]) (.num 50)).1
      = .error .allFailed ∧
    (ModelRouter.callModel false ⟨false, true, false⟩ (fun _ => .error "network error")
        "gemini-2.0-pro" (.arr [.obj [("content".data, .str "hello".data)]]) (.num 50)).1
      = .error .allFailed ∧
    (ModelRouter.callModel false ⟨true, false, false⟩ (fun _ => .error "network error")
        "gemini-2.0-pro" (.arr [.obj [("content".data, .str "hello".data)]]) (.num 50)).2
      ≠ (ModelRouter.callModel false ⟨false, true, false⟩ (fun _ => .error "network error")
        "gemini-2.0-pro" (.arr [.obj [("content".data, .str "hello".data)]]) (.num 50)).2 := by
  refine ⟨rfl, rfl, ?_⟩
  decide

/-- Claim C1 (amended): the optimized router's `callModel`
(`modelRouter_optimized.js`) satisfies the claim: on a valid non-mock request
in which every routed attempt fails, it fails with an aggregate error whose
reason list is exactly one (provider, model, reason) entry per attempted
(routed) provider, in fallback order, with no entry for attempts skipped
because their client was not initialized. The base router's `callModel`
(`modelRouter.js`) instead throws a constant error that enumerates nothing
(see the counterexample). -/
theorem claim_C1 (cl : Clients) (call : Attempt → Except String Response)
    (modelName : String) (ms : List JSVal) (mt : Int)
    (hms : ms ≠ [])
    (hp : (jsTrim (joinPrompt ms)).isEmpty = false)
    (h : ∀ a ∈ FALLBACK_MODELS, routedAttempt cl a = true → attemptFails call a = true) :
    ModelRouterOptimized.callModel false cl call modelName (.arr ms) mt =
      .error (.aggregate ((FALLBACK_MODELS.filter (routedAttempt cl)).map
        (failureEntry call))) := by
  unfold ModelRouterOptimized.callModel
  cases ms with
  | nil => exact absurd rfl hms
  | cons m rest =>
    show (if (jsTrim (joinPrompt (m :: rest))).isEmpty = true then _ else _) = _
    rw [if_neg (by rw [hp]; simp)]
    show ModelRouterOptimized.fallbackLoop cl call FALLBACK_MODELS [] = _
    rw [ModelRouterOptimized.fallbackLoop_all_fail cl call _ _ h]
    rfl

/-- Claim C1 witness: with only the Gemini client initialized and every call
failing with a transport error, the optimized router's aggregate error lists
exactly the three attempted entries (two Gemini models and the always-routed
local Ollama attempt) with their reasons -- the skipped Groq and OpenAI
attempts are absent. -/
theorem claim_C1_witness :
    ModelRouterOptimized.callModel false ⟨true, false, false⟩
      (fun _ => .error "network error") "gemini-2.0-pro"
      (.arr [.obj [("content".data, .str "hello".data)]]) 50 =
    .error (.aggregate
      [(⟨.gemini, "gemini-2.0-flash"⟩, "network error"),
       (⟨.gemini, "gemini-2.0-pro"⟩, "network error"),
       (⟨.ollama, "llama3"⟩, "network error")]) := by
  rw [claim_C1 ⟨true, false, false⟩ (fun _ => .error "network error") "gemini-2.0-pro"
    [.obj [("content".data, .str "hello".data)]] 50 (by simp) (by decide) (by decide)]
  rfl

/-!
## Claims C4, C6, C9: traversal order, input validation, mock mode
-/

/-- If every routed attempt before `a` fails, `a` is routed and its call
returns a validating response, the base fallback loop stops at `a`: it
returns `a`'s response and its invocation trace is exactly the routed part
of the prefix followed by `a` -- no later attempt's client is invoked. -/
theorem ModelRouter.fallbackLoop_first_success (cl : Clients)
    (call : Attempt → Except String Response) (l1 : List Attempt) (a : Attempt)
    (l2 : List Attempt) (r : Response)
    (hfail : ∀ b ∈ l1, routedAttempt cl b = true → attemptFails call b = true)
    (hr : routedAttempt cl a = true)
    (hcall : call a = .ok r) (hval : validateResponse r = true) :
    ModelRouter.fallbackLoop cl call (l1 ++ a :: l2) =
      (.ok r, l1.filter (routedAttempt cl) ++ [a]) := by
  induction l1 with
  | nil =>
    unfold ModelRouter.fallbackLoop
    rw [List.nil_append]
    show (if routedAttempt cl a = true then _ else _) = _
    rw [if_pos hr]
    show (match call a with
      | Except.ok r =>
        if validateResponse r = true then ((Except.ok r : Except CallError Response), [a])
        else
          (let next := ModelRouter.fallbackLoop cl call l2
          (next.1, a :: next.2))
      | Except.error _ =>
        let next := ModelRouter.fallbackLoop cl call l2
        (next.1, a :: next.2)) = _
    rw [hcall]
    show (if validateResponse r = true then _ else _) = _
    rw [if_pos hval]
    rfl
  | cons b t ih =>
    have hbfail := hfail b (List.mem_cons_self b t)
    have htfail : ∀ c ∈ t, routedAttempt cl c = true → attemptFails call c = true :=
      fun c hc => hfail c (List.mem_cons_of_mem b hc)
    rw [List.cons_append]
    unfold ModelRouter.fallbackLoop
    by_cases hb : routedAttempt cl b = true
    · rw [if_pos hb]
      have hbf : attemptFails call b = true := hbfail hb
      unfold attemptFails at hbf
      cases hcb : call b with
      | error e =>
        show (let next := ModelRouter.fallbackLoop cl call (t ++ a :: l2)
          ((next.1 : Except CallError Response), b :: next.2)) = _
        rw [ih htfail]
        rw [List.filter_cons_of_pos hb]
        rfl
      | ok rb =>
        rw [hcb] at hbf
        have hbf' : (!validateResponse rb) = true := hbf
        have hvb : validateResponse rb = false := by
          cases hx : validateResponse rb
          · rfl
          · rw [hx] at hbf'; simp at hbf'
        show (if validateResponse rb = true then ((Except.ok rb : Except CallError Response), [b])
          else
            (let next := ModelRouter.fallbackLoop cl call (t ++ a :: l2)
            (next.1, b :: next.2))) = _
        rw [if_neg (by simp [hvb])]
        show (let next := ModelRouter.fallbackLoop cl call (t ++ a :: l2)
          ((next.1 : Except CallError Response), b :: next.2)) = _
        rw [ih htfail]
        rw [List.filter_cons_of_pos hb]
        rfl
    · have hb' : routedAttempt cl b = false := by
        cases hx : routedAttempt cl b
        · rfl
        · exact absurd hx hb
      rw [if_neg (by simp [hb'])]
      rw [ih htfail]
      rw [List.filter_cons_of_neg (by simp [hb'])]

/-- Claim C4: in non-mock mode on a valid request, the base router traverses
`FALLBACK_MODELS` strictly in its configured order, invoking each routed
attempt's client at most once, and returns immediately on the first attempt
whose call succeeds with a validating (non-empty-content) response: the run
result is that attempt's response, the invocation trace is exactly the
routed attempts of the preceding prefix followed by the succeeding attempt,
and no attempt after the succeeding one is ever invoked. -/
theorem claim_C4 (cl : Clients) (call : Attempt → Except String Response)
    (modelName : String) (messages : JSVal) (n : Int)
    (l1 : List Attempt) (a : Attempt) (l2 : List Attempt) (r : Response)
    (hv : validateMessages messages = none)
    (hn : 1 ≤ n)
    (hp : (jsTrim (joinPrompt (messagesList messages))).isEmpty = false)
    (hsplit : FALLBACK_MODELS = l1 ++ a :: l2)
    (hfail : ∀ b ∈ l1, routedAttempt cl b = true → attemptFails call b = true)
    (hr : routedAttempt cl a = true)
    (hcall : call a = .ok r) (hval : validateResponse r = true) :
    ModelRouter.callModel false cl call modelName messages (.num n) =
      (.ok r, l1.filter (routedAttempt cl) ++ [a]) ∧
    ∀ b ∈ l2, b ∉ l1.filter (routedAttempt cl) ++ [a] := by
  constructor
  · unfold ModelRouter.callModel
    rw [hv]
    show (if n < 1 then _ else _) = _
    rw [if_neg (by omega)]
    show (if (jsTrim (joinPrompt (messagesList messages))).isEmpty = true then _ else _) = _
    rw [hp]
    rw [if_neg (show ¬(false = true) by simp)]
    rw [if_neg (show ¬(false = true) by simp)]
    show ModelRouter.fallbackLoop cl call FALLBACK_MODELS = _
    rw [hsplit]
    exact ModelRouter.fallbackLoop_first_success cl call l1 a l2 r hfail hr hcall hval
  · have hnd : FALLBACK_MODELS.Nodup := by decide
    rw [hsplit] at hnd
    rw [List.nodup_append] at hnd
    obtain ⟨hnd1, hnd2, hdisj⟩ := hnd
    intro b hb hmem
    rcases List.mem_append.mp hmem with hmf | hma
    · exact hdisj (List.mem_of_mem_filter hmf) (List.mem_cons_of_mem a hb)
    · rw [List.mem_singleton] at hma
      subst hma
      exact (List.nodup_cons.mp hnd2).1 hb

/-- Claim C4 witness: with all clients initialized, the first attempt
failing with a transport error and the second succeeding, the run returns
the second attempt's response, the trace is exactly the first two attempts,
and none of the three later attempts is invoked. -/
theorem claim_C4_witness :
    ModelRouter.callModel false ⟨true, true, true⟩
      (fun b => if b.model = "gemini-2.0-flash" then .error "transport error"
                else .ok ⟨[⟨"hi".data⟩]⟩)
      "gemini-2.0-pro" (.arr [.obj [("content".data, .str "hello".data)]]) (.num 50) =
      (.ok ⟨[⟨"hi".data⟩]⟩,
        [⟨.gemini, "gemini-2.0-flash"⟩, ⟨.gemini, "gemini-2.0-pro"⟩]) ∧
    ∀ b ∈ ([⟨.groq, "llama-3.1-70b-versatile"⟩, ⟨.openai, "gpt-4.1-mini"⟩,
            ⟨.ollama, "llama3"⟩] : List Attempt),
      b ∉ ([⟨.gemini, "gemini-2.0-flash"⟩, ⟨.gemini, "gemini-2.0-pro"⟩] : List Attempt) := by
  have h := claim_C4 ⟨true, true, true⟩
    (fun b => if b.model = "gemini-2.0-flash" then .error "transport error"
              else .ok ⟨[⟨"hi".data⟩]⟩)
    "gemini-2.0-pro" (.arr [.obj [("content".data, .str "hello".data)]]) 50
    [⟨.gemini, "gemini-2.0-flash"⟩] ⟨.gemini, "gemini-2.0-pro"⟩
    [⟨.groq, "llama-3.1-70b-versatile"⟩, ⟨.openai, "gpt-4.1-mini"⟩, ⟨.ollama, "llama3"⟩]
    ⟨[⟨"hi".data⟩]⟩ rfl (by decide) (by decide) rfl (by decide) rfl rfl rfl
  exact ⟨h.1, fun b hb => h.2 b hb⟩

/-- A message with valid content per the router's contract: an object whose
`content` property is a non-empty string of at most 100000 characters. -/
def msgContentValid (m : JSVal) : Prop :=
  ∃ fields s, m = .obj fields ∧ getProp fields "content".data = some (.str s) ∧
    s ≠ [] ∧ s.length ≤ 100000

theorem messageError_eq_none_iff (m : JSVal) :
    messageError m = none ↔ msgContentValid m := by
  constructor
  · intro h
    cases m with
    | obj fields =>
      have h' : (match getProp fields "content".data with
        | some (JSVal.str s) =>
          if s.isEmpty = true then some "each message must have a non-empty string content field"
          else if s.length > 100000 then some "message content exceeds maximum length (100KB)"
          else none
        | _ => some "each message must have a non-empty string content field") = none := h
      cases hg : getProp fields "content".data with
      | none => rw [hg] at h'; simp at h'
      | some v =>
        cases v with
        | str cs =>
          rw [hg] at h'
          have h2 : (if cs.isEmpty = true
              then some "each message must have a non-empty string content field"
              else if cs.length > 100000
                then some "message content exceeds maximum length (100KB)"
                else none) = none := h'
          by_cases he : cs.isEmpty
          · rw [if_pos he] at h2; simp at h2
          · rw [if_neg he] at h2
            by_cases hl : cs.length > 100000
            · rw [if_pos hl] at h2; simp at h2
            · exact ⟨fields, cs, rfl, hg, by simpa using he, by omega⟩
        | null => rw [hg] at h'; simp at h'
        | bool b => rw [hg] at h'; simp at h'
        | num n => rw [hg] at h'; simp at h'
        | arr xs => rw [hg] at h'; simp at h'
        | obj fs => rw [hg] at h'; simp at h'
    | null => simp [messageError] at h
    | bool b => simp [messageError] at h
    | num n => simp [messageError] at h
    | str cs => simp [messageError] at h
    | arr xs => simp [messageError] at h
  · rintro ⟨fields, cs, rfl, hg, hne, hle⟩
    show (match getProp fields "content".data with
      | some (JSVal.str s) =>
        if s.isEmpty = true then some "each message must have a non-empty string content field"
        else if s.length > 100000 then some "message content exceeds maximum length (100KB)"
        else none
      | _ => some "each message must have a non-empty string content field") = none
    rw [hg]
    show (if cs.isEmpty = true
        then some "each message must have a non-empty string content field"
        else if cs.length > 100000
          then some "message content exceeds maximum length (100KB)"
          else none) = none
    rw [if_neg (by simpa using hne)]
    rw [if_neg (by omega)]

theorem firstMessageError_eq_none_iff (ms : List JSVal) :
    firstMessageError ms = none ↔ ∀ m ∈ ms, messageError m = none := by
  induction ms with
  | nil => simp [firstMessageError]
  | cons m rest ih =>
    unfold firstMessageError
    cases he : messageError m with
    | some e => simp [he]
    | none =>
      rw [ih]
      constructor
      · intro h x hx
        rcases List.mem_cons.mp hx with rfl | hx'
        · exact he
        · exact h x hx'
      · intro h x hx
        exact h x (List.mem_cons_of_mem m hx)

theorem validateMessages_eq_none_iff (messages : JSVal) :
    validateMessages messages = none ↔
      ∃ ms, messages = .arr ms ∧ ms ≠ [] ∧ ∀ m ∈ ms, messageError m = none := by
  cases messages with
  | arr ms =>
    cases ms with
    | nil => simp [validateMessages]
    | cons m rest =>
      unfold validateMessages
      rw [firstMessageError_eq_none_iff]
      constructor
      · intro h
        exact ⟨m :: rest, rfl, by simp, h⟩
      · rintro ⟨ms', hms', _, h⟩
        cases hms'
        exact h
  | null => simp [validateMessages]
  | bool b => simp [validateMessages]
  | num n => simp [validateMessages]
  | str cs => simp [validateMessages]
  | obj fs => simp [validateMessages]

/-- The invalid inputs of claim C6: `messages` is not a non-empty array, or
some message lacks non-empty (and bounded, at most 100000 characters) string
content, or `maxTokens` is not a positive number. -/
def invalidCallInput (messages maxTokens : JSVal) : Prop :=
  (¬ ∃ ms, messages = .arr ms ∧ ms ≠ []) ∨
  (∃ ms, messages = .arr ms ∧ ∃ m ∈ ms, ¬ msgContentValid m) ∨
  (¬ ∃ n : Int, maxTokens = .num n ∧ 1 ≤ n)

/-- Claim C6: on every invalid input -- `messages` not a non-empty array, a
message without non-empty string content, content exceeding 100000
characters, or `maxTokens` not a positive number -- `callModel` fails
immediately with an input-validation error and no provider client is
invoked (the invocation trace is empty). -/
theorem claim_C6 (mock : Bool) (cl : Clients) (call : Attempt → Except String Response)
    (modelName : String) (messages maxTokens : JSVal)
    (h : invalidCallInput messages maxTokens) :
    ∃ e, ModelRouter.callModel mock cl call modelName messages maxTokens =
      (.error (.invalid e), []) := by
  cases hv : validateMessages messages with
  | some e =>
    refine ⟨e, ?_⟩
    unfold ModelRouter.callModel
    rw [hv]
  | none =>
    obtain ⟨ms, rfl, hne, hall⟩ := (validateMessages_eq_none_iff messages).mp hv
    rcases h with h1 | h2 | h3
    · exact absurd ⟨ms, rfl, hne⟩ h1
    · obtain ⟨ms', hms', m, hm, hnv⟩ := h2
      cases hms'
      exact absurd ((messageError_eq_none_iff m).mp (hall m hm)) hnv
    · refine ⟨"maxTokens must be a positive number", ?_⟩
      unfold ModelRouter.callModel
      rw [hv]
      cases maxTokens with
      | num n =>
        have hn : n < 1 := by
          by_contra hc
          exact h3 ⟨n, rfl, by omega⟩
        show (if n < 1 then _ else _) = _
        rw [if_pos hn]
      | null => rfl
      | bool b => rfl
      | str cs => rfl
      | arr xs => rfl
      | obj fs => rfl

/-- Claim C6 witness: an empty `messages` array is rejected with an
input-validation error and the invocation trace stays empty, with every
client initialized and an oracle that would answer any call. -/
theorem claim_C6_witness :
    invalidCallInput (.arr []) (.num 50) ∧
    ∃ e, ModelRouter.callModel false ⟨true, true, true⟩
      (fun _ => .ok ⟨[⟨"hi".data⟩]⟩) "gemini-2.0-pro" (.arr []) (.num 50) =
      (.error (.invalid e), []) := by
  have hinv : invalidCallInput (.arr []) (.num 50) := by
    left
    rintro ⟨ms, hms, hne⟩
    cases hms
    exact hne rfl
  exact ⟨hinv, claim_C6 false ⟨true, true, true⟩ (fun _ => .ok ⟨[⟨"hi".data⟩]⟩)
    "gemini-2.0-pro" (.arr []) (.num 50) hinv⟩

/-- A valid `generate` request per the spec's data model: a non-empty
message array whose members all carry non-empty bounded string content, a
prompt join that is non-empty after trimming (the GenerationRequest
invariant), and a positive numeric token budget. -/
def validRequest (messages maxTokens : JSVal) : Prop :=
  ∃ ms, messages = .arr ms ∧ ms ≠ [] ∧ (∀ m ∈ ms, msgContentValid m) ∧
    (jsTrim (joinPrompt ms)).isEmpty = false ∧
    ∃ n : Int, maxTokens = .num n ∧ 1 ≤ n

/-- Claim C9: on every valid request, with the process-wide mock flag set,
`callModel` returns the fixed placeholder response and no provider client is
invoked (the invocation trace is empty), whatever the clients and however
the network would behave. -/
theorem claim_C9 (cl : Clients) (call : Attempt → Except String Response)
    (modelName : String) (messages maxTokens : JSVal)
    (h : validRequest messages maxTokens) :
    ModelRouter.callModel true cl call modelName messages maxTokens =
      (.ok mockResponse, []) := by
  obtain ⟨ms, rfl, hne, hall, hp, n, rfl, hn⟩ := h
  have hv : validateMessages (.arr ms) = none :=
    (validateMessages_eq_none_iff _).mpr
      ⟨ms, rfl, hne, fun m hm => (messageError_eq_none_iff m).mpr (hall m hm)⟩
  unfold ModelRouter.callModel
  rw [hv]
  show (if n < 1 then _ else _) = _
  rw [if_neg (by omega)]
  show (if (jsTrim (joinPrompt (messagesList (.arr ms)))).isEmpty = true then _ else _) = _
  have hml : messagesList (.arr ms) = ms := rfl
  rw [hml, hp]
  rw [if_neg (show ¬(false = true) by simp)]
  rw [if_pos (show (true = true) by rfl)]

/-- Claim C9 witness: a concrete valid one-message request in mock mode
returns the fixed placeholder with an empty invocation trace, under an
oracle that would fail every call if it were consulted. -/
theorem claim_C9_witness :
    ModelRouter.callModel true ⟨true, true, true⟩ (fun _ => .error "network error")
      "gemini-2.0-pro" (.arr [.obj [("content".data, .str "hello".data)]]) (.num 50) =
      (.ok mockResponse, []) :=
  claim_C9 ⟨true, true, true⟩ (fun _ => .error "network error") "gemini-2.0-pro"
    (.arr [.obj [("content".data, .str "hello".data)]]) (.num 50)
    ⟨[.obj [("content".data, .str "hello".data)]], rfl, by simp,
      by
        intro m hm
        rw [List.mem_singleton] at hm
        subst hm
        exact ⟨[("content".data, .str "hello".data)], "hello".data, rfl, rfl,
          by simp, by simp⟩,
      by decide, 50, rfl, by omega⟩

/-!
## JSON serialization and parsing (models of `JSON.stringify` / `JSON.parse`)

`JSON.stringify` emits the compact form: no inserted white space, field
order preserved, `"`/`\\` and control characters escaped (the named escapes
plus `\u00XX`), all other scalars verbatim. `JSON.parse` is modelled as a
recursive-descent parser of the JSON grammar over `List Char`, with numbers
restricted to integers (every number in the modelled data is integral) and
a fuel argument bounding recursion depth (`parseTop` supplies more fuel than
any input can consume, so the fuel never runs out on a parseable input).
-/

def digitChar : Nat → Char
  | 0 => '0' | 1 => '1' | 2 => '2' | 3 => '3' | 4 => '4'
  | 5 => '5' | 6 => '6' | 7 => '7' | 8 => '8' | 9 => '9'
  | _ => '0'

def hexChar : Nat → Char
  | 10 => 'a' | 11 => 'b' | 12 => 'c' | 13 => 'd' | 14 => 'e' | 15 => 'f'
  | d => digitChar d

def hexVal (c : Char) : Option Nat :=
  if c = '0' then some 0 else if c = '1' then some 1 else if c = '2' then some 2
  else if c = '3' then some 3 else if c = '4' then some 4 else if c = '5' then some 5
  else if c = '6' then some 6 else if c = '7' then some 7 else if c = '8' then some 8
  else if c = '9' then some 9
  else if c = 'a' then some 10 else if c = 'b' then some 11 else if c = 'c' then some 12
  else if c = 'd' then some 13 else if c = 'e' then some 14 else if c = 'f' then some 15
  else if c = 'A' then some 10 else if c = 'B' then some 11 else if c = 'C' then some 12
  else if c = 'D' then some 13 else if c = 'E' then some 14 else if c = 'F' then some 15
  else none

/-- Big-endian decimal digits of a natural number. -/
def natBE (n : Nat) : List Char :=
  if n < 10 then [digitChar n]
  else natBE (n / 10) ++ [digitChar (n % 10)]
  decreasing_by exact Nat.div_lt_self (by omega) (by omega)

/-- `JSON.stringify` of an (integral) number. -/
def strInt : Int → List Char
  | .ofNat n => natBE n
  | .negSucc n => '-' :: natBE (n + 1)

/-- The escape `JSON.stringify` uses for one character of a string. -/
def escChar (c : Char) : List Char :=
  if c = '"' then ['\\', '"']
  else if c = '\\' then ['\\', '\\']
  else if c = '\x08' then ['\\', 'b']
  else if c = '\t' then ['\\', 't']
  else if c = '\n' then ['\\', 'n']
  else if c = '\x0c' then ['\\', 'f']
  else if c = '\r' then ['\\', 'r']
  else if c.toNat < 32 then ['\\', 'u', '0', '0', hexChar (c.toNat / 16), hexChar (c.toNat % 16)]
  else [c]

def escChars : List Char → List Char
  | [] => []
  | c :: rest => escChar c ++ escChars rest

mutual

/-- `JSON.stringify` of a value (compact form). -/
def strV : JSVal → List Char
  | .null => "null".data
  | .bool true => "true".data
  | .bool false => "false".data
  | .num i => strInt i
  | .str s => '"' :: (escChars s ++ ['"'])
  | .arr xs => '[' :: (strElems xs ++ [']'])
  | .obj fs => '{' :: (strMembers fs ++ ['\x7d'])

/-- The comma-separated serialized elements of an array. -/
def strElems : List JSVal → List Char
  | [] => []
  | [x] => strV x
  | x :: y :: rest => strV x ++ ',' :: strElems (y :: rest)

/-- The comma-separated serialized `"key":value` members of an object. -/
def strMembers : List (List Char × JSVal) → List Char
  | [] => []
  | [(k, v)] => '"' :: (escChars k ++ '"' :: ':' :: strV v)
  | (k, v) :: m :: rest =>
    ('"' :: (escChars k ++ '"' :: ':' :: strV v)) ++ ',' :: strMembers (m :: rest)

end

/-- JSON inter-token white space accepted by `JSON.parse`. -/
def wsChar (c : Char) : Bool :=
  c = ' ' || c = '\t' || c = '\n' || c = '\r'

def skipWs : List Char → List Char := List.dropWhile wsChar

/-- The single-character escapes `JSON.parse` accepts after a backslash. -/
def escCharOf (e : Char) : Option Char :=
  if e = '"' then some '"'
  else if e = '\\' then some '\\'
  else if e = '/' then some '/'
  else if e = 'b' then some '\x08'
  else if e = 'f' then some '\x0c'
  else if e = 'n' then some '\n'
  else if e = 'r' then some '\r'
  else if e = 't' then some '\t'
  else none

/-- The value of four hex digits. -/
def hex4 (h1 h2 h3 h4 : Char) : Option Nat :=
  match hexVal h1, hexVal h2, hexVal h3, hexVal h4 with
  | some a, some b, some c, some d => some (((a * 16 + b) * 16 + c) * 16 + d)
  | _, _, _, _ => none

/-- Parse the body of a JSON string literal (the opening quote already
consumed): the decoded characters and the input after the closing quote. -/
def parseStringBody : List Char → Option (List Char × List Char)
  | [] => none
  | c :: rest =>
    if c = '"' then some ([], rest)
    else if c = '\\' then
      match rest with
      | [] => none
      | e :: rest2 =>
        if e = 'u' then
          match rest2 with
          | h1 :: h2 :: h3 :: h4 :: rest3 =>
            match hex4 h1 h2 h3 h4 with
            | some n =>
              (parseStringBody rest3).map (fun p => (Char.ofNat n :: p.1, p.2))
            | none => none
          | _ => none
        else
          match escCharOf e with
          | some c' => (parseStringBody rest2).map (fun p => (c' :: p.1, p.2))
          | none => none
    else (parseStringBody rest).map (fun p => (c :: p.1, p.2))

/-- Strip an expected literal character sequence off the input. -/
def stripLit : List Char → List Char → Option (List Char)
  | [], cs => some cs
  | _ :: _, [] => none
  | p :: ps, c :: cs => if c = p then stripLit ps cs else none

/-- Numeric value of a big-endian digit run. -/
def digitsVal (l : List Char) : Nat :=
  l.foldl (fun a c => 10 * a + (c.toNat - 48)) 0

mutual

/-- Recursive-descent JSON value parser (grammar of `JSON.parse`, numbers
restricted to integers): returns the value and the unconsumed input. -/
def parseValue : Nat → List Char → Option (JSVal × List Char)
  | 0, _ => none
  | fuel + 1, cs =>
    match cs with
    | [] => none
    | c :: rest =>
      if c = '"' then (parseStringBody rest).map (fun p => (JSVal.str p.1, p.2))
      else if c = '\x7b' then
        match skipWs rest with
        | [] => none
        | d :: rest2 =>
          if d = '\x7d' then some (.obj [], rest2)
          else (parseMembers fuel (d :: rest2)).map (fun p => (JSVal.obj p.1, p.2))
      else if c = '[' then
        match skipWs rest with
        | [] => none
        | d :: rest2 =>
          if d = ']' then some (.arr [], rest2)
          else (parseElems fuel (d :: rest2)).map (fun p => (JSVal.arr p.1, p.2))
      else if c = 't' then
        match stripLit "rue".data rest with
        | some rest2 => some (.bool true, rest2)
        | none => none
      else if c = 'f' then
        match stripLit "alse".data rest with
        | some rest2 => some (.bool false, rest2)
        | none => none
      else if c = 'n' then
        match stripLit "ull".data rest with
        | some rest2 => some (.null, rest2)
        | none => none
      else if c = '-' then
        match rest.takeWhile Char.isDigit with
        | [] => none
        | ds => some (.num (-(digitsVal ds : Int)), rest.dropWhile Char.isDigit)
      else if c.isDigit then
        some (.num ((digitsVal ((c :: rest).takeWhile Char.isDigit) : Nat) : Int),
          (c :: rest).dropWhile Char.isDigit)
      else none

/-- Parser for a non-empty `"key": value` member list up to and including
the closing brace. -/
def parseMembers : Nat → List Char → Option (List (List Char × JSVal) × List Char)
  | 0, _ => none
  | fuel + 1, cs =>
    match cs with
    | [] => none
    | c :: rest =>
      if c = '"' then
        match parseStringBody rest with
        | some (key, r1) =>
          match skipWs r1 with
          | [] => none
          | d :: r2 =>
            if d = ':' then
              match parseValue fuel (skipWs r2) with
              | some (v, r3) =>
                match skipWs r3 with
                | [] => none
                | e :: r4 =>
                  if e = ',' then
                    (parseMembers fuel (skipWs r4)).map (fun p => ((key, v) :: p.1, p.2))
                  else if e = '\x7d' then some ([(key, v)], r4)
                  else none
              | none => none
            else none
        | none => none
      else none

/-- Parser for a non-empty element list up to and including the closing
bracket. -/
def parseElems : Nat → List Char → Option (List JSVal × List Char)
  | 0, _ => none
  | fuel + 1, cs =>
    match parseValue fuel cs with
    | some (v, r1) =>
      match skipWs r1 with
      | [] => none
      | d :: r2 =>
        if d = ',' then (parseElems fuel (skipWs r2)).map (fun p => (v :: p.1, p.2))
        else if d = ']' then some ([v], r2)
        else none
    | none => none

end

/-- `JSON.parse`: skip surrounding white space, parse one value, require
full consumption. The fuel `length + 1` is more than any parse can use. -/
def parseTop (cs : List Char) : Option JSVal :=
  match parseValue (cs.length + 1) (skipWs cs) with
  | some (v, r) => if (skipWs r).isEmpty then some v else none
  | none => none

/-!
## Digit, hex and white-space character facts
-/

theorem digitChar_isDigit : ∀ d, d < 10 → (digitChar d).isDigit = true := by decide

theorem digitChar_val : ∀ d, d < 10 → (digitChar d).toNat - 48 = d := by decide

theorem hexVal_hexChar : ∀ d, d < 16 → hexVal (hexChar d) = some d := by decide

/-- A digit character differs from any non-digit character. -/
theorem isDigit_ne {c : Char} (hc : c.isDigit = true) (x : Char) (hx : x.isDigit = false) :
    c ≠ x := by
  rintro rfl
  rw [hc] at hx
  cases hx

theorem isDigit_not_wsChar {c : Char} (hc : c.isDigit = true) : wsChar c = false := by
  unfold wsChar
  have h1 : c ≠ ' ' := isDigit_ne hc _ (by decide)
  have h2 : c ≠ '\t' := isDigit_ne hc _ (by decide)
  have h3 : c ≠ '\n' := isDigit_ne hc _ (by decide)
  have h4 : c ≠ '\r' := isDigit_ne hc _ (by decide)
  simp [h1, h2, h3, h4]

theorem isDigit_not_jsWsChar {c : Char} (hc : c.isDigit = true) : jsWsChar c = false := by
  unfold jsWsChar
  have h1 : c ≠ ' ' := isDigit_ne hc _ (by decide)
  have h2 : c ≠ '\t' := isDigit_ne hc _ (by decide)
  have h3 : c ≠ '\n' := isDigit_ne hc _ (by decide)
  have h4 : c ≠ '\r' := isDigit_ne hc _ (by decide)
  have h5 : c ≠ '\x0b' := isDigit_ne hc _ (by decide)
  have h6 : c ≠ '\x0c' := isDigit_ne hc _ (by decide)
  have h7 : c ≠ '\u00a0' := isDigit_ne hc _ (by decide)
  simp [h1, h2, h3, h4, h5, h6, h7]

/-!
## Decimal digits round trip
-/

theorem natBE_ne_nil (n : Nat) : natBE n ≠ [] := by
  rw [natBE]
  split
  · simp
  · simp

theorem natBE_digits : ∀ n, ∀ c ∈ natBE n, c.isDigit = true := by
  intro n
  induction n using Nat.strong_induction_on with
  | _ n ih =>
    intro c hc
    rw [natBE] at hc
    split at hc
    · rw [List.mem_singleton] at hc
      subst hc
      exact digitChar_isDigit _ (by omega)
    · rcases List.mem_append.mp hc with h | h
      · exact ih (n / 10) (Nat.div_lt_self (by omega) (by omega)) c h
      · rw [List.mem_singleton] at h
        subst h
        exact digitChar_isDigit _ (Nat.mod_lt _ (by omega))

theorem digitsVal_natBE : ∀ n, digitsVal (natBE n) = n := by
  intro n
  induction n using Nat.strong_induction_on with
  | _ n ih =>
    rw [natBE]
    split
    · show digitsVal [digitChar n] = n
      show 10 * 0 + ((digitChar n).toNat - 48) = n
      rw [digitChar_val n (by omega)]
      omega
    · unfold digitsVal
      rw [List.foldl_append]
      show 10 * digitsVal (natBE (n / 10)) + ((digitChar (n % 10)).toNat - 48) = n
      rw [ih (n / 10) (Nat.div_lt_self (by omega) (by omega))]
      rw [digitChar_val (n % 10) (Nat.mod_lt _ (by omega))]
      omega

/-!
## String-literal escape round trip
-/

theorem hex4_zero_zero (a b : Nat) (ha : a < 16) (hb : b < 16) :
    hex4 '0' '0' (hexChar a) (hexChar b) = some (a * 16 + b) := by
  unfold hex4
  rw [hexVal_hexChar a ha, hexVal_hexChar b hb]
  show some (((0 * 16 + 0) * 16 + a) * 16 + b) = some (a * 16 + b)
  congr 1
  omega

theorem parseStringBody_esc :
    ∀ (w : List Char) (rest : List Char),
      parseStringBody (escChars w ++ '"' :: rest) = some (w, rest) := by
  intro w
  induction w with
  | nil =>
    intro rest
    show parseStringBody ('"' :: rest) = some ([], rest)
    rw [parseStringBody.eq_def]
    simp
  | cons c w' ih =>
    intro rest
    show parseStringBody ((escChar c ++ escChars w') ++ '"' :: rest) = _
    rw [List.append_assoc]
    by_cases h1 : c = '"'
    · subst h1
      have step : parseStringBody ('\\' :: '"' :: (escChars w' ++ '"' :: rest)) =
          (parseStringBody (escChars w' ++ '"' :: rest)).map (fun p => ('"' :: p.1, p.2)) := by
        rw [parseStringBody.eq_def]
        simp [escCharOf]
      show parseStringBody ('\\' :: '"' :: (escChars w' ++ '"' :: rest)) = _
      rw [step, ih]
      rfl
    · by_cases h2 : c = '\\'
      · subst h2
        have step : parseStringBody ('\\' :: '\\' :: (escChars w' ++ '"' :: rest)) =
            (parseStringBody (escChars w' ++ '"' :: rest)).map (fun p => ('\\' :: p.1, p.2)) := by
          rw [parseStringBody.eq_def]
          simp [escCharOf]
        show parseStringBody ('\\' :: '\\' :: (escChars w' ++ '"' :: rest)) = _
        rw [step, ih]
        rfl
      · by_cases h3 : c = '\x08'
        · subst h3
          have step : parseStringBody ('\\' :: 'b' :: (escChars w' ++ '"' :: rest)) =
              (parseStringBody (escChars w' ++ '"' :: rest)).map
                (fun p => ('\x08' :: p.1, p.2)) := by
            rw [parseStringBody.eq_def]
            simp [escCharOf]
          show parseStringBody ('\\' :: 'b' :: (escChars w' ++ '"' :: rest)) = _
          rw [step, ih]
          rfl
        · by_cases h4 : c = '\t'
          · subst h4
            have step : parseStringBody ('\\' :: 't' :: (escChars w' ++ '"' :: rest)) =
                (parseStringBody (escChars w' ++ '"' :: rest)).map
                  (fun p => ('\t' :: p.1, p.2)) := by
              rw [parseStringBody.eq_def]
              simp [escCharOf]
            show parseStringBody ('\\' :: 't' :: (escChars w' ++ '"' :: rest)) = _
            rw [step, ih]
            rfl
          · by_cases h5 : c = '\n'
            · subst h5
              have step : parseStringBody ('\\' :: 'n' :: (escChars w' ++ '"' :: rest)) =
                  (parseStringBody (escChars w' ++ '"' :: rest)).map
                    (fun p => ('\n' :: p.1, p.2)) := by
                rw [parseStringBody.eq_def]
                simp [escCharOf]
              show parseStringBody ('\\' :: 'n' :: (escChars w' ++ '"' :: rest)) = _
              rw [step, ih]
              rfl
            · by_cases h6 : c = '\x0c'
              · subst h6
                have step : parseStringBody ('\\' :: 'f' :: (escChars w' ++ '"' :: rest)) =
                    (parseStringBody (escChars w' ++ '"' :: rest)).map
                      (fun p => ('\x0c' :: p.1, p.2)) := by
                  rw [parseStringBody.eq_def]
                  simp [escCharOf]
                show parseStringBody ('\\' :: 'f' :: (escChars w' ++ '"' :: rest)) = _
                rw [step, ih]
                rfl
              · by_cases h7 : c = '\r'
                · subst h7
                  have step : parseStringBody ('\\' :: 'r' :: (escChars w' ++ '"' :: rest)) =
                      (parseStringBody (escChars w' ++ '"' :: rest)).map
                        (fun p => ('\r' :: p.1, p.2)) := by
                    rw [parseStringBody.eq_def]
                    simp [escCharOf]
                  show parseStringBody ('\\' :: 'r' :: (escChars w' ++ '"' :: rest)) = _
                  rw [step, ih]
                  rfl
                · by_cases h8 : c.toNat < 32
                  · have hesc : escChar c = ['\\', 'u', '0', '0', hexChar (c.toNat / 16),
                        hexChar (c.toNat % 16)] := by
                      unfold escChar
                      rw [if_neg h1, if_neg h2, if_neg h3, if_neg h4, if_neg h5, if_neg h6,
                        if_neg h7, if_pos h8]
                    rw [hesc]
                    have hh : hex4 '0' '0' (hexChar (c.toNat / 16)) (hexChar (c.toNat % 16)) =
                        some (c.toNat / 16 * 16 + c.toNat % 16) :=
                      hex4_zero_zero _ _ (by omega) (Nat.mod_lt _ (by omega))
                    have hval : c.toNat / 16 * 16 + c.toNat % 16 = c.toNat := by omega
                    rw [hval] at hh
                    have step : parseStringBody ('\\' :: 'u' :: '0' :: '0' ::
                        hexChar (c.toNat / 16) :: hexChar (c.toNat % 16) ::
                        (escChars w' ++ '"' :: rest)) =
                        (parseStringBody (escChars w' ++ '"' :: rest)).map
                          (fun p => (Char.ofNat c.toNat :: p.1, p.2)) := by
                      rw [parseStringBody.eq_def]
                      simp [hh]
                    show parseStringBody ('\\' :: 'u' :: '0' :: '0' ::
                        hexChar (c.toNat / 16) :: hexChar (c.toNat % 16) ::
                        (escChars w' ++ '"' :: rest)) = _
                    rw [step, ih]
                    show some (Char.ofNat c.toNat :: w', rest) = _
                    rw [Char.ofNat_toNat]
                  · have hesc : escChar c = [c] := by
                      unfold escChar
                      rw [if_neg h1, if_neg h2, if_neg h3, if_neg h4, if_neg h5, if_neg h6,
                        if_neg h7, if_neg h8]
                    rw [hesc]
                    have step : parseStringBody (c :: (escChars w' ++ '"' :: rest)) =
                        (parseStringBody (escChars w' ++ '"' :: rest)).map
                          (fun p => (c :: p.1, p.2)) := by
                      rw [parseStringBody.eq_def]
                      simp [h1, h2]
                    show parseStringBody (c :: (escChars w' ++ '"' :: rest)) = _
                    rw [step, ih]
                    rfl


/-!
## Serialization shape lemmas
-/

theorem strV_null : strV .null = "null".data := by rw [strV]

theorem strV_true : strV (.bool true) = "true".data := by rw [strV]

theorem strV_false : strV (.bool false) = "false".data := by rw [strV]

theorem strV_num (i : Int) : strV (.num i) = strInt i := by rw [strV]

theorem strV_str (s : List Char) : strV (.str s) = '"' :: (escChars s ++ ['"']) := by rw [strV]

theorem strV_arr (xs : List JSVal) : strV (.arr xs) = '[' :: (strElems xs ++ [']']) := by
  rw [strV]

theorem strV_obj (fs : List (List Char × JSVal)) :
    strV (.obj fs) = '\x7b' :: (strMembers fs ++ ['\x7d']) := by rw [strV]

theorem strElems_nil : strElems [] = [] := by rw [strElems]

theorem strMembers_nil : strMembers [] = [] := by rw [strMembers]

theorem strElems_single (x : JSVal) : strElems [x] = strV x := by rw [strElems]

theorem strElems_cons2 (x y : JSVal) (rest : List JSVal) :
    strElems (x :: y :: rest) = strV x ++ ',' :: strElems (y :: rest) := by rw [strElems]

theorem strMembers_single (k : List Char) (v : JSVal) :
    strMembers [(k, v)] = '"' :: (escChars k ++ '"' :: ':' :: strV v) := by rw [strMembers]

theorem strMembers_cons2 (k : List Char) (v : JSVal) (m : List Char × JSVal)
    (rest : List (List Char × JSVal)) :
    strMembers ((k, v) :: m :: rest) =
      ('"' :: (escChars k ++ '"' :: ':' :: strV v)) ++ ',' :: strMembers (m :: rest) := by
  rw [strMembers]

/-- The characters a serialized value can start with. -/
def startChar (c : Char) : Prop :=
  c = '\x7b' ∨ c = '[' ∨ c = '"' ∨ c = 't' ∨ c = 'f' ∨ c = 'n' ∨ c = '-' ∨ c.isDigit = true

theorem startChar_facts {c : Char} (h : startChar c) :
    wsChar c = false ∧ jsWsChar c = false ∧ c ≠ ']' ∧ c ≠ '\x7d' ∧ c ≠ '`' := by
  rcases h with rfl | rfl | rfl | rfl | rfl | rfl | rfl | hd
  · exact ⟨by decide, by decide, by decide, by decide, by decide⟩
  · exact ⟨by decide, by decide, by decide, by decide, by decide⟩
  · exact ⟨by decide, by decide, by decide, by decide, by decide⟩
  · exact ⟨by decide, by decide, by decide, by decide, by decide⟩
  · exact ⟨by decide, by decide, by decide, by decide, by decide⟩
  · exact ⟨by decide, by decide, by decide, by decide, by decide⟩
  · exact ⟨by decide, by decide, by decide, by decide, by decide⟩
  · exact ⟨isDigit_not_wsChar hd, isDigit_not_jsWsChar hd, isDigit_ne hd _ (by decide),
      isDigit_ne hd _ (by decide), isDigit_ne hd _ (by decide)⟩

theorem strV_head : ∀ v : JSVal, ∃ c t, strV v = c :: t ∧ startChar c := by
  intro v
  cases v with
  | null => exact ⟨'n', "ull".data, by rw [strV_null], by right; right; right; right; right; left; rfl⟩
  | bool b =>
    cases b with
    | true => exact ⟨'t', "rue".data, by rw [strV_true], by right; right; right; left; rfl⟩
    | false => exact ⟨'f', "alse".data, by rw [strV_false], by right; right; right; right; left; rfl⟩
  | num i =>
    cases i with
    | ofNat n =>
      rcases hn : natBE n with _ | ⟨c, t⟩
      · exact absurd hn (natBE_ne_nil n)
      · refine ⟨c, t, by rw [strV_num]; exact hn, ?_⟩
        right; right; right; right; right; right; right
        exact natBE_digits n c (by rw [hn]; exact List.mem_cons_self c t)
    | negSucc n =>
      exact ⟨'-', natBE (n + 1), by rw [strV_num]; rfl, by right; right; right; right; right; right; left; rfl⟩
  | str s => exact ⟨'"', escChars s ++ ['"'], strV_str s, by right; right; left; rfl⟩
  | arr xs => exact ⟨'[', strElems xs ++ [']'], strV_arr xs, by right; left; rfl⟩
  | obj fs => exact ⟨'\x7b', strMembers fs ++ ['\x7d'], strV_obj fs, by left; rfl⟩

theorem strV_length_pos (v : JSVal) : 1 ≤ (strV v).length := by
  obtain ⟨c, t, heq, -⟩ := strV_head v
  rw [heq]
  simp

theorem strElems_cons_shape (x : JSVal) (xs : List JSVal) :
    ∃ t, strElems (x :: xs) = strV x ++ t := by
  cases xs with
  | nil => exact ⟨[], by rw [strElems_single, List.append_nil]⟩
  | cons y rest => exact ⟨',' :: strElems (y :: rest), strElems_cons2 x y rest⟩

theorem strElems_head (x : JSVal) (xs : List JSVal) :
    ∃ c t, strElems (x :: xs) = c :: t ∧ startChar c := by
  obtain ⟨t, ht⟩ := strElems_cons_shape x xs
  obtain ⟨c, t', heq, hc⟩ := strV_head x
  exact ⟨c, t' ++ t, by rw [ht, heq, List.cons_append], hc⟩

theorem strElems_length_pos (x : JSVal) (xs : List JSVal) :
    1 ≤ (strElems (x :: xs)).length := by
  obtain ⟨c, t, heq, -⟩ := strElems_head x xs
  rw [heq]
  simp

theorem strMembers_cons_shape (k : List Char) (v : JSVal) (fs : List (List Char × JSVal)) :
    ∃ t, strMembers ((k, v) :: fs) = '"' :: (escChars k ++ '"' :: ':' :: strV v) ++ t := by
  cases fs with
  | nil => exact ⟨[], by rw [strMembers_single, List.append_nil]⟩
  | cons m rest => exact ⟨',' :: strMembers (m :: rest), strMembers_cons2 k v m rest⟩

theorem strMembers_length_pos (m : List Char × JSVal) (fs : List (List Char × JSVal)) :
    1 ≤ (strMembers (m :: fs)).length := by
  obtain ⟨k, v⟩ := m
  obtain ⟨t, ht⟩ := strMembers_cons_shape k v fs
  rw [ht]
  simp

/-- The characters a serialized value can end with. -/
def endChar (c : Char) : Prop :=
  c = '\x7d' ∨ c = ']' ∨ c = '"' ∨ c = 'e' ∨ c = 'l' ∨ c.isDigit = true

theorem endChar_facts {c : Char} (h : endChar c) : jsWsChar c = false := by
  rcases h with rfl | rfl | rfl | rfl | rfl | hd
  · decide
  · decide
  · decide
  · decide
  · decide
  · exact isDigit_not_jsWsChar hd

theorem natBE_getLast_digit (n : Nat) :
    ∃ c, (natBE n).getLast? = some c ∧ c.isDigit = true := by
  rcases hn : natBE n with _ | ⟨c, t⟩
  · exact absurd hn (natBE_ne_nil n)
  · refine ⟨(c :: t).getLast (by simp), by simp [List.getLast?_eq_getLast], ?_⟩
    have hmem : (c :: t).getLast (by simp) ∈ natBE n := by
      rw [hn]
      exact List.getLast_mem (by simp)
    exact natBE_digits n _ hmem

theorem strV_last : ∀ v : JSVal, ∃ c, (strV v).getLast? = some c ∧ endChar c := by
  intro v
  cases v with
  | null => exact ⟨'l', by rw [strV_null]; rfl, by right; right; right; right; left; rfl⟩
  | bool b =>
    cases b with
    | true => exact ⟨'e', by rw [strV_true]; rfl, by right; right; right; left; rfl⟩
    | false => exact ⟨'e', by rw [strV_false]; rfl, by right; right; right; left; rfl⟩
  | num i =>
    cases i with
    | ofNat n =>
      obtain ⟨c, hc, hd⟩ := natBE_getLast_digit n
      exact ⟨c, by rw [strV_num]; exact hc, Or.inr (Or.inr (Or.inr (Or.inr (Or.inr hd))))⟩
    | negSucc n =>
      obtain ⟨c, hc, hd⟩ := natBE_getLast_digit (n + 1)
      refine ⟨c, ?_, Or.inr (Or.inr (Or.inr (Or.inr (Or.inr hd))))⟩
      rw [strV_num]
      show ('-' :: natBE (n + 1)).getLast? = some c
      rcases hn : natBE (n + 1) with _ | ⟨d, t⟩
      · exact absurd hn (natBE_ne_nil (n + 1))
      · rw [hn] at hc
        rw [List.getLast?_cons_cons]
        exact hc
  | str s =>
    refine ⟨'"', ?_, by right; right; left; rfl⟩
    rw [strV_str, ← List.cons_append, List.getLast?_concat]
  | arr xs =>
    refine ⟨']', ?_, by right; left; rfl⟩
    rw [strV_arr, ← List.cons_append, List.getLast?_concat]
  | obj fs =>
    refine ⟨'\x7d', ?_, by left; rfl⟩
    rw [strV_obj, ← List.cons_append, List.getLast?_concat]

/-!
## Parser step lemmas
-/

theorem skipWs_cons_neg {c : Char} (h : wsChar c = false) (t : List Char) :
    skipWs (c :: t) = c :: t := by
  unfold skipWs
  rw [List.dropWhile_cons_of_neg (by simp [h])]

theorem stripLit_self : ∀ (lit rest : List Char), stripLit lit (lit ++ rest) = some rest := by
  intro lit
  induction lit with
  | nil => intro rest; rfl
  | cons p ps ih =>
    intro rest
    show stripLit (p :: ps) (p :: (ps ++ rest)) = some rest
    unfold stripLit
    rw [if_pos rfl]
    exact ih rest

theorem takeWhile_stop {p : Char → Bool} {rest : List Char}
    (hrest : ∀ c, rest.head? = some c → p c = false) :
    rest.takeWhile p = [] := by
  cases rest with
  | nil => rfl
  | cons c t => rw [List.takeWhile_cons_of_neg (by simp [hrest c rfl])]

theorem dropWhile_stop {p : Char → Bool} {rest : List Char}
    (hrest : ∀ c, rest.head? = some c → p c = false) :
    rest.dropWhile p = rest := by
  cases rest with
  | nil => rfl
  | cons c t => rw [List.dropWhile_cons_of_neg (by simp [hrest c rfl])]

theorem span_all_stop {p : Char → Bool} {l rest : List Char}
    (hl : ∀ c ∈ l, p c = true) (hrest : ∀ c, rest.head? = some c → p c = false) :
    (l ++ rest).takeWhile p = l ∧ (l ++ rest).dropWhile p = rest := by
  constructor
  · rw [List.takeWhile_append_of_pos hl, takeWhile_stop hrest, List.append_nil]
  · rw [List.dropWhile_append_of_pos hl, dropWhile_stop hrest]

/-- Predicate on the input that may follow a serialized number: its first
character, if any, is not a digit. -/
def goodRest (rest : List Char) : Prop :=
  ∀ c, rest.head? = some c → c.isDigit = false

theorem goodRest_nil : goodRest [] := fun _ h => by cases h

theorem goodRest_cons {c : Char} (h : c.isDigit = false) (t : List Char) :
    goodRest (c :: t) := by
  intro d hd
  injection hd with hd'
  subst hd'
  exact h

theorem parseValue_quote (f : Nat) (rest : List Char) :
    parseValue (f + 1) ('"' :: rest) =
      (parseStringBody rest).map (fun p => (JSVal.str p.1, p.2)) := by
  rw [parseValue.eq_def]
  simp

theorem parseValue_lbrace (f : Nat) (rest : List Char) :
    parseValue (f + 1) ('\x7b' :: rest) =
      (match skipWs rest with
       | [] => none
       | d :: rest2 =>
         if d = '\x7d' then some (.obj [], rest2)
         else (parseMembers f (d :: rest2)).map (fun p => (JSVal.obj p.1, p.2))) := by
  rw [parseValue.eq_def]
  simp

theorem parseValue_lbrack (f : Nat) (rest : List Char) :
    parseValue (f + 1) ('[' :: rest) =
      (match skipWs rest with
       | [] => none
       | d :: rest2 =>
         if d = ']' then some (.arr [], rest2)
         else (parseElems f (d :: rest2)).map (fun p => (JSVal.arr p.1, p.2))) := by
  rw [parseValue.eq_def]
  simp

theorem parseValue_lit_t (f : Nat) (rest : List Char) :
    parseValue (f + 1) ('t' :: rest) =
      (match stripLit "rue".data rest with
       | some rest2 => some (JSVal.bool true, rest2)
       | none => none) := by
  rw [parseValue.eq_def]
  simp

theorem parseValue_lit_f (f : Nat) (rest : List Char) :
    parseValue (f + 1) ('f' :: rest) =
      (match stripLit "alse".data rest with
       | some rest2 => some (JSVal.bool false, rest2)
       | none => none) := by
  rw [parseValue.eq_def]
  simp

theorem parseValue_lit_n (f : Nat) (rest : List Char) :
    parseValue (f + 1) ('n' :: rest) =
      (match stripLit "ull".data rest with
       | some rest2 => some (JSVal.null, rest2)
       | none => none) := by
  rw [parseValue.eq_def]
  simp

theorem parseValue_neg (f : Nat) (rest : List Char) :
    parseValue (f + 1) ('-' :: rest) =
      (match rest.takeWhile Char.isDigit with
       | [] => none
       | ds => some (.num (-(digitsVal ds : Int)), rest.dropWhile Char.isDigit)) := by
  rw [parseValue.eq_def]
  simp

theorem parseValue_digit (f : Nat) {c : Char} (rest : List Char) (hc : c.isDigit = true) :
    parseValue (f + 1) (c :: rest) =
      some (.num ((digitsVal ((c :: rest).takeWhile Char.isDigit) : Nat) : Int),
        (c :: rest).dropWhile Char.isDigit) := by
  have h1 : c ≠ '"' := isDigit_ne hc _ (by decide)
  have h2 : c ≠ '\x7b' := isDigit_ne hc _ (by decide)
  have h3 : c ≠ '[' := isDigit_ne hc _ (by decide)
  have h4 : c ≠ 't' := isDigit_ne hc _ (by decide)
  have h5 : c ≠ 'f' := isDigit_ne hc _ (by decide)
  have h6 : c ≠ 'n' := isDigit_ne hc _ (by decide)
  have h7 : c ≠ '-' := isDigit_ne hc _ (by decide)
  rw [parseValue.eq_def]
  simp [h1, h2, h3, h4, h5, h6, h7, hc]

theorem parseValue_lbrack_cons (f : Nat) (rest : List Char) {d : Char} {rest2 : List Char}
    (h : skipWs rest = d :: rest2) :
    parseValue (f + 1) ('[' :: rest) =
      if d = ']' then some (.arr [], rest2)
      else (parseElems f (d :: rest2)).map (fun p => (JSVal.arr p.1, p.2)) := by
  rw [parseValue_lbrack, h]

theorem parseValue_lbrace_cons (f : Nat) (rest : List Char) {d : Char} {rest2 : List Char}
    (h : skipWs rest = d :: rest2) :
    parseValue (f + 1) ('\x7b' :: rest) =
      if d = '\x7d' then some (.obj [], rest2)
      else (parseMembers f (d :: rest2)).map (fun p => (JSVal.obj p.1, p.2)) := by
  rw [parseValue_lbrace, h]

theorem parseElems_step (f : Nat) {cs : List Char} {v : JSVal} {r1 : List Char}
    (h : parseValue f cs = some (v, r1)) {d : Char} {r2 : List Char}
    (h2 : skipWs r1 = d :: r2) :
    parseElems (f + 1) cs =
      if d = ',' then (parseElems f (skipWs r2)).map (fun p => (v :: p.1, p.2))
      else if d = ']' then some ([v], r2)
      else none := by
  rw [parseElems.eq_def]
  simp [h, h2]

theorem parseMembers_step (f : Nat) {key r1 : List Char} (rest : List Char)
    (h1 : parseStringBody rest = some (key, r1)) {r2 : List Char}
    (h2 : skipWs r1 = ':' :: r2) {v : JSVal} {r3 : List Char}
    (h3 : parseValue f (skipWs r2) = some (v, r3)) {e : Char} {r4 : List Char}
    (h4 : skipWs r3 = e :: r4) :
    parseMembers (f + 1) ('"' :: rest) =
      if e = ',' then (parseMembers f (skipWs r4)).map (fun p => ((key, v) :: p.1, p.2))
      else if e = '\x7d' then some ([(key, v)], r4)
      else none := by
  rw [parseMembers.eq_def]
  simp [h1, h2, h3, h4]

/-!
## The serializer/parser round trip
-/

theorem parse_roundtrip : ∀ fuel : Nat,
    (∀ (v : JSVal) (rest : List Char), (strV v).length < fuel → goodRest rest →
      parseValue fuel (strV v ++ rest) = some (v, rest)) ∧
    (∀ (xs : List JSVal) (rest : List Char), xs ≠ [] → (strElems xs).length + 2 ≤ fuel →
      parseElems fuel (strElems xs ++ ']' :: rest) = some (xs, rest)) ∧
    (∀ (fs : List (List Char × JSVal)) (rest : List Char), fs ≠ [] →
      (strMembers fs).length + 2 ≤ fuel →
      parseMembers fuel (strMembers fs ++ '\x7d' :: rest) = some (fs, rest)) := by
  intro fuel
  induction fuel using Nat.strong_induction_on with
  | _ fuel ih =>
    refine ⟨?_, ?_, ?_⟩
    · -- values
      intro v rest hlen hrest
      have hpos : 1 ≤ (strV v).length := strV_length_pos v
      obtain ⟨f, rfl⟩ : ∃ f, fuel = f + 1 := ⟨fuel - 1, by omega⟩
      cases v with
      | null =>
        rw [strV_null]
        show parseValue (f + 1) ('n' :: ("ull".data ++ rest)) = _
        rw [parseValue_lit_n, stripLit_self]
      | bool b =>
        cases b with
        | true =>
          rw [strV_true]
          show parseValue (f + 1) ('t' :: ("rue".data ++ rest)) = _
          rw [parseValue_lit_t, stripLit_self]
        | false =>
          rw [strV_false]
          show parseValue (f + 1) ('f' :: ("alse".data ++ rest)) = _
          rw [parseValue_lit_f, stripLit_self]
      | num i =>
        cases i with
        | ofNat n =>
          rw [strV_num]
          show parseValue (f + 1) (natBE n ++ rest) = _
          obtain ⟨htw, hdw⟩ := span_all_stop (natBE_digits n) hrest
          rcases hn : natBE n with _ | ⟨c, t⟩
          · exact absurd hn (natBE_ne_nil n)
          · have hc : c.isDigit = true :=
              natBE_digits n c (by rw [hn]; exact List.mem_cons_self c t)
            rw [hn] at htw hdw
            show parseValue (f + 1) (c :: (t ++ rest)) = _
            rw [parseValue_digit f _ hc]
            rw [show ((c :: (t ++ rest)).takeWhile Char.isDigit) = c :: t from htw]
            rw [show ((c :: (t ++ rest)).dropWhile Char.isDigit) = rest from hdw]
            rw [show digitsVal (c :: t) = n from by rw [← hn]; exact digitsVal_natBE n]
            rfl
        | negSucc n =>
          rw [strV_num]
          show parseValue (f + 1) ('-' :: (natBE (n + 1) ++ rest)) = _
          rw [parseValue_neg]
          obtain ⟨htw, hdw⟩ := span_all_stop (natBE_digits (n + 1)) hrest
          rw [htw, hdw]
          rcases hn : natBE (n + 1) with _ | ⟨c, t⟩
          · exact absurd hn (natBE_ne_nil (n + 1))
          · show some (JSVal.num (-(digitsVal (c :: t) : Int)), rest)
              = some (JSVal.num (Int.negSucc n), rest)
            rw [show digitsVal (c :: t) = n + 1 from by rw [← hn]; exact digitsVal_natBE (n + 1)]
            norm_num [Int.negSucc_eq]
      | str s =>
        rw [strV_str, List.cons_append, List.append_assoc]
        show parseValue (f + 1) ('"' :: (escChars s ++ ('"' :: rest))) = _
        rw [parseValue_quote, parseStringBody_esc]
        rfl
      | arr xs =>
        rw [strV_arr, List.cons_append, List.append_assoc]
        show parseValue (f + 1) ('[' :: (strElems xs ++ (']' :: rest))) = _
        have hlen' : (strElems xs).length + 2 < f + 1 := by
          rw [strV_arr] at hlen
          simp only [List.length_cons, List.length_append, List.length_singleton] at hlen
          omega
        cases xs with
        | nil =>
          rw [strElems_nil]
          show parseValue (f + 1) ('[' :: (']' :: rest)) = _
          rw [parseValue_lbrack_cons f _ (skipWs_cons_neg (by decide) _), if_pos rfl]
        | cons x xs' =>
          obtain ⟨c, t, heq, hc⟩ := strElems_head x xs'
          obtain ⟨hws, -, hrb, -, -⟩ := startChar_facts hc
          have hskip : skipWs (strElems (x :: xs') ++ (']' :: rest)) =
              c :: (t ++ (']' :: rest)) := by
            rw [heq, List.cons_append]
            exact skipWs_cons_neg hws _
          rw [parseValue_lbrack_cons f _ hskip, if_neg hrb]
          have hB := (ih f (by omega)).2.1 (x :: xs') rest (by simp) (by omega)
          rw [show (c :: (t ++ (']' :: rest))) = strElems (x :: xs') ++ ']' :: rest from by
            rw [heq, List.cons_append]]
          rw [hB]
          rfl
      | obj fs =>
        rw [strV_obj, List.cons_append, List.append_assoc]
        show parseValue (f + 1) ('\x7b' :: (strMembers fs ++ ('\x7d' :: rest))) = _
        have hlen' : (strMembers fs).length + 2 < f + 1 := by
          rw [strV_obj] at hlen
          simp only [List.length_cons, List.length_append, List.length_singleton] at hlen
          omega
        cases fs with
        | nil =>
          rw [strMembers_nil]
          show parseValue (f + 1) ('\x7b' :: ('\x7d' :: rest)) = _
          rw [parseValue_lbrace_cons f _ (skipWs_cons_neg (by decide) _), if_pos rfl]
        | cons m fs' =>
          obtain ⟨k, v⟩ := m
          obtain ⟨t, ht⟩ := strMembers_cons_shape k v fs'
          have hskip : skipWs (strMembers ((k, v) :: fs') ++ ('\x7d' :: rest)) =
              '"' :: ((escChars k ++ '"' :: ':' :: strV v) ++ t ++ ('\x7d' :: rest)) := by
            rw [ht]
            show skipWs ('"' :: ((escChars k ++ '"' :: ':' :: strV v) ++ t ++ ('\x7d' :: rest)))
              = _
            exact skipWs_cons_neg (by decide) _
          rw [parseValue_lbrace_cons f _ hskip, if_neg (by decide)]
          have hC := (ih f (by omega)).2.2 ((k, v) :: fs') rest (by simp) (by omega)
          rw [show ('"' :: ((escChars k ++ '"' :: ':' :: strV v) ++ t ++ ('\x7d' :: rest)))
              = strMembers ((k, v) :: fs') ++ '\x7d' :: rest from by
            rw [ht]
            simp [List.append_assoc]]
          rw [hC]
          rfl
    · -- elements
      intro xs rest hne hfuel
      obtain ⟨f, rfl⟩ : ∃ f, fuel = f + 1 := ⟨fuel - 1, by omega⟩
      cases xs with
      | nil => exact absurd rfl hne
      | cons x xs' =>
        cases xs' with
        | nil =>
          rw [strElems_single] at hfuel ⊢
          have hA := (ih f (by omega)).1 x (']' :: rest) (by omega)
            (goodRest_cons (by decide) rest)
          rw [parseElems_step f hA (skipWs_cons_neg (by decide) _),
            if_neg (by decide), if_pos rfl]
        | cons y ys =>
          have hlx : 1 ≤ (strV x).length := strV_length_pos x
          have hly : 1 ≤ (strElems (y :: ys)).length := strElems_length_pos y ys
          rw [strElems_cons2] at hfuel
          simp only [List.length_append, List.length_cons] at hfuel
          have hshape : strElems (x :: y :: ys) ++ ']' :: rest =
              strV x ++ (',' :: (strElems (y :: ys) ++ ']' :: rest)) := by
            rw [strElems_cons2]
            simp [List.append_assoc]
          rw [hshape]
          have hA := (ih f (by omega)).1 x (',' :: (strElems (y :: ys) ++ ']' :: rest))
            (by omega) (goodRest_cons (by decide) _)
          rw [parseElems_step f hA (skipWs_cons_neg (by decide) _), if_pos rfl]
          obtain ⟨c, t, heq, hcs⟩ := strElems_head y ys
          obtain ⟨hws, -, -, -, -⟩ := startChar_facts hcs
          have hskip : skipWs (strElems (y :: ys) ++ ']' :: rest) =
              strElems (y :: ys) ++ ']' :: rest := by
            rw [heq, List.cons_append]
            exact skipWs_cons_neg hws _
          rw [hskip]
          have hB := (ih f (by omega)).2.1 (y :: ys) rest (by simp) (by omega)
          rw [hB]
          rfl
    · -- members
      intro fs rest hne hfuel
      obtain ⟨f, rfl⟩ : ∃ f, fuel = f + 1 := ⟨fuel - 1, by omega⟩
      cases fs with
      | nil => exact absurd rfl hne
      | cons m fs' =>
        obtain ⟨k, v⟩ := m
        have hlv : 1 ≤ (strV v).length := strV_length_pos v
        cases fs' with
        | nil =>
          rw [strMembers_single] at hfuel ⊢
          simp only [List.length_cons, List.length_append] at hfuel
          show parseMembers (f + 1)
            ('"' :: ((escChars k ++ '"' :: ':' :: strV v) ++ '\x7d' :: rest)) = _
          have hstr : parseStringBody ((escChars k ++ '"' :: ':' :: strV v) ++ '\x7d' :: rest)
              = some (k, ':' :: (strV v ++ '\x7d' :: rest)) := by
            rw [List.append_assoc]
            show parseStringBody (escChars k ++ ('"' :: (':' :: strV v ++ '\x7d' :: rest))) = _
            rw [parseStringBody_esc]
            simp
          have hA := (ih f (by omega)).1 v ('\x7d' :: rest) (by omega)
            (goodRest_cons (by decide) rest)
          have hv : parseValue f (skipWs (strV v ++ '\x7d' :: rest)) = some (v, '\x7d' :: rest) := by
            obtain ⟨c, t, heq, hcs⟩ := strV_head v
            obtain ⟨hws, -, -, -, -⟩ := startChar_facts hcs
            rw [heq, List.cons_append, skipWs_cons_neg hws, ← List.cons_append, ← heq]
            exact hA
          rw [parseMembers_step f _ hstr (skipWs_cons_neg (by decide) _) hv
            (skipWs_cons_neg (by decide) _), if_neg (by decide), if_pos rfl]
        | cons m' fs'' =>
          rw [strMembers_cons2] at hfuel ⊢
          have hlm : 1 ≤ (strMembers (m' :: fs'')).length := strMembers_length_pos m' fs''
          simp only [List.length_cons, List.length_append] at hfuel
          rw [List.append_assoc, List.cons_append]
          show parseMembers (f + 1)
            ('"' :: ((escChars k ++ '"' :: ':' :: strV v) ++
              (',' :: strMembers (m' :: fs'') ++ '\x7d' :: rest))) = _
          have hstr : parseStringBody ((escChars k ++ '"' :: ':' :: strV v) ++
              (',' :: strMembers (m' :: fs'') ++ '\x7d' :: rest))
              = some (k, ':' :: (strV v ++ ',' :: strMembers (m' :: fs'') ++ '\x7d' :: rest)) := by
            rw [List.append_assoc]
            show parseStringBody (escChars k ++ ('"' :: (':' :: strV v ++
              (',' :: strMembers (m' :: fs'') ++ '\x7d' :: rest)))) = _
            rw [parseStringBody_esc]
            simp
          have hA := (ih f (by omega)).1 v
            (',' :: (strMembers (m' :: fs'') ++ '\x7d' :: rest)) (by omega)
            (goodRest_cons (by decide) _)
          have hv : parseValue f (skipWs (strV v ++ ',' :: strMembers (m' :: fs'') ++ '\x7d' :: rest))
              = some (v, ',' :: (strMembers (m' :: fs'') ++ '\x7d' :: rest)) := by
            obtain ⟨c, t, heq, hcs⟩ := strV_head v
            obtain ⟨hws, -, -, -, -⟩ := startChar_facts hcs
            have hskipv : skipWs (strV v ++ ',' :: strMembers (m' :: fs'') ++ '\x7d' :: rest)
                = strV v ++ ',' :: strMembers (m' :: fs'') ++ '\x7d' :: rest := by
              rw [heq]
              exact skipWs_cons_neg hws _
            rw [hskipv, List.append_assoc, List.cons_append]
            exact hA
          rw [parseMembers_step f _ hstr (skipWs_cons_neg (by decide) _) hv
            (skipWs_cons_neg (by decide) _), if_pos rfl]
          obtain ⟨k', v'⟩ := m'
          obtain ⟨t, ht⟩ := strMembers_cons_shape k' v' fs''
          have hskip : skipWs (strMembers ((k', v') :: fs'') ++ '\x7d' :: rest) =
              strMembers ((k', v') :: fs'') ++ '\x7d' :: rest := by
            rw [ht]
            show skipWs ('"' :: ((escChars k' ++ '"' :: ':' :: strV v') ++ t ++ ('\x7d' :: rest)))
              = _
            exact skipWs_cons_neg (by decide) _
          rw [hskip]
          have hC := (ih f (by omega)).2.2 ((k', v') :: fs'') rest (by simp) (by omega)
          rw [hC]
          rfl

/-!
## Fuel monotonicity
-/

theorem parse_mono : ∀ f : Nat,
    (∀ cs x, parseValue f cs = some x → parseValue (f + 1) cs = some x) ∧
    (∀ cs x, parseElems f cs = some x → parseElems (f + 1) cs = some x) ∧
    (∀ cs x, parseMembers f cs = some x → parseMembers (f + 1) cs = some x) := by
  intro f
  induction f using Nat.strong_induction_on with
  | _ f ih =>
    refine ⟨?_, ?_, ?_⟩
    · intro cs x h
      match f, h with
      | g + 1, h =>
        cases cs with
        | nil => rw [parseValue.eq_def] at h; exact absurd h (by simp)
        | cons c rest =>
          by_cases h1 : c = '"'
          · subst h1
            rw [parseValue_quote] at h
            rw [parseValue_quote]
            exact h
          · by_cases h2 : c = '\x7b'
            · subst h2
              cases hs : skipWs rest with
              | nil =>
                rw [parseValue_lbrace, hs] at h
                exact absurd h (by simp)
              | cons d rest2 =>
                rw [parseValue_lbrace_cons g rest hs] at h
                rw [parseValue_lbrace_cons (g + 1) rest hs]
                by_cases hd : d = '\x7d'
                · rw [if_pos hd] at h ⊢
                  exact h
                · rw [if_neg hd] at h ⊢
                  cases hp : parseMembers g (d :: rest2) with
                  | none => rw [hp] at h; exact absurd h (by simp)
                  | some p =>
                    rw [hp] at h
                    rw [(ih g (by omega)).2.2 _ _ hp]
                    exact h
            · by_cases h3 : c = '['
              · subst h3
                cases hs : skipWs rest with
                | nil =>
                  rw [parseValue_lbrack, hs] at h
                  exact absurd h (by simp)
                | cons d rest2 =>
                  rw [parseValue_lbrack_cons g rest hs] at h
                  rw [parseValue_lbrack_cons (g + 1) rest hs]
                  by_cases hd : d = ']'
                  · rw [if_pos hd] at h ⊢
                    exact h
                  · rw [if_neg hd] at h ⊢
                    cases hp : parseElems g (d :: rest2) with
                    | none => rw [hp] at h; exact absurd h (by simp)
                    | some p =>
                      rw [hp] at h
                      rw [(ih g (by omega)).2.1 _ _ hp]
                      exact h
              · -- the remaining branches make no recursive call: both fuels
                -- evaluate to syntactically identical results
                have hbody : ∀ g' : Nat, parseValue (g' + 1) (c :: rest) =
                    (if c = 't' then
                      match stripLit "rue".data rest with
                      | some rest2 => some (JSVal.bool true, rest2)
                      | none => none
                    else if c = 'f' then
                      match stripLit "alse".data rest with
                      | some rest2 => some (JSVal.bool false, rest2)
                      | none => none
                    else if c = 'n' then
                      match stripLit "ull".data rest with
                      | some rest2 => some (JSVal.null, rest2)
                      | none => none
                    else if c = '-' then
                      match rest.takeWhile Char.isDigit with
                      | [] => none
                      | ds => some (.num (-(digitsVal ds : Int)), rest.dropWhile Char.isDigit)
                    else if c.isDigit then
                      some (.num ((digitsVal ((c :: rest).takeWhile Char.isDigit) : Nat) : Int),
                        (c :: rest).dropWhile Char.isDigit)
                    else none) := by
                  intro g'
                  rw [parseValue.eq_def]
                  simp [h1, h2, h3]
                rw [hbody g] at h
                rw [hbody (g + 1)]
                exact h
    · intro cs x h
      match f, h with
      | g + 1, h =>
        cases hv : parseValue g cs with
        | none =>
          rw [parseElems.eq_def] at h
          simp only [hv] at h
          exact absurd h (by simp)
        | some p =>
          obtain ⟨v, r1⟩ := p
          have hv' := (ih g (by omega)).1 _ _ hv
          cases hs : skipWs r1 with
          | nil =>
            rw [parseElems.eq_def] at h
            simp only [hv, hs] at h
            exact absurd h (by simp)
          | cons d r2 =>
            rw [parseElems_step g hv hs] at h
            rw [parseElems_step (g + 1) hv' hs]
            by_cases hd : d = ','
            · rw [if_pos hd] at h ⊢
              cases hp : parseElems g (skipWs r2) with
              | none => rw [hp] at h; exact absurd h (by simp)
              | some p2 =>
                rw [hp] at h
                rw [(ih g (by omega)).2.1 _ _ hp]
                exact h
            · rw [if_neg hd] at h ⊢
              exact h
    · intro cs x h
      match f, h with
      | g + 1, h =>
        cases cs with
        | nil => rw [parseMembers.eq_def] at h; exact absurd h (by simp)
        | cons c rest =>
          by_cases h1 : c = '"'
          · subst h1
            cases hstr : parseStringBody rest with
            | none =>
              rw [parseMembers.eq_def] at h
              simp only [hstr] at h
              exact absurd h (by simp)
            | some p =>
              obtain ⟨key, r1⟩ := p
              cases hs : skipWs r1 with
              | nil =>
                rw [parseMembers.eq_def] at h
                simp only [hstr, hs] at h
                exact absurd h (by simp)
              | cons d r2 =>
                by_cases hd : d = ':'
                · subst hd
                  cases hv : parseValue g (skipWs r2) with
                  | none =>
                    rw [parseMembers.eq_def] at h
                    simp only [hstr, hs, hv] at h
                    exact absurd h (by simp)
                  | some p2 =>
                    obtain ⟨v, r3⟩ := p2
                    have hv' := (ih g (by omega)).1 _ _ hv
                    cases hs3 : skipWs r3 with
                    | nil =>
                      rw [parseMembers.eq_def] at h
                      simp only [hstr, hs, hv, hs3] at h
                      exact absurd h (by simp)
                    | cons e r4 =>
                      rw [parseMembers_step g rest hstr hs hv hs3] at h
                      rw [parseMembers_step (g + 1) rest hstr hs hv' hs3]
                      by_cases he : e = ','
                      · rw [if_pos he] at h ⊢
                        cases hp : parseMembers g (skipWs r4) with
                        | none => rw [hp] at h; exact absurd h (by simp)
                        | some p3 =>
                          rw [hp] at h
                          rw [(ih g (by omega)).2.2 _ _ hp]
                          exact h
                      · rw [if_neg he] at h ⊢
                        exact h
                · rw [parseMembers.eq_def] at h
                  simp only [hstr, hs] at h
                  rw [if_neg hd] at h
                  exact absurd h (by simp)
          · rw [parseMembers.eq_def] at h
            simp only [] at h
            rw [if_neg h1] at h
            exact absurd h (by simp)

theorem parseValue_mono {f f' : Nat} (hle : f ≤ f') {cs : List Char} {x : JSVal × List Char}
    (h : parseValue f cs = some x) : parseValue f' cs = some x := by
  induction f' with
  | zero =>
    have : f = 0 := by omega
    subst this
    exact h
  | succ g ihg =>
    by_cases hf : f = g + 1
    · subst hf
      exact h
    · exact (parse_mono g).1 _ _ (ihg (by omega))

/-!
## Parser extension helpers
-/

theorem skipWs_decomp {l : List Char} {d : Char} {r : List Char} (h : skipWs l = d :: r) :
    l = l.takeWhile wsChar ++ d :: r := by
  conv_lhs => rw [← List.takeWhile_append_dropWhile (p := wsChar) (l := l)]
  rw [show List.dropWhile wsChar l = d :: r from h]

theorem skipWs_append_cons {l tail : List Char} {d : Char} {r : List Char}
    (h : skipWs l = d :: r) : skipWs (l ++ tail) = d :: (r ++ tail) := by
  unfold skipWs at h ⊢
  rw [List.dropWhile_append, h]
  simp

theorem dropWhile_head_false {p : Char → Bool} :
    ∀ {l : List Char} {c : Char} {t : List Char}, List.dropWhile p l = c :: t → p c = false := by
  intro l
  induction l with
  | nil => intro c t h; cases h
  | cons a l' ih =>
    intro c t h
    rw [List.dropWhile_cons] at h
    by_cases hpa : p a = true
    · rw [if_pos hpa] at h
      exact ih h
    · rw [if_neg hpa] at h
      injection h with h1 h2
      subst h1
      cases hb : p a
      · rfl
      · exact absurd hb hpa

theorem stripLit_some : ∀ {lit cs rest : List Char}, stripLit lit cs = some rest →
    cs = lit ++ rest := by
  intro lit
  induction lit with
  | nil =>
    intro cs rest h
    have h' : some cs = some rest := h
    injection h' with h''
  | cons p ps ih =>
    intro cs rest h
    cases cs with
    | nil => cases h
    | cons c cs' =>
      unfold stripLit at h
      by_cases hc : c = p
      · rw [if_pos hc] at h
        rw [hc, List.cons_append, ih h]
      · rw [if_neg hc] at h
        cases h

theorem parseValue_nil (f : Nat) : parseValue f [] = none := by
  cases f with
  | zero => rw [parseValue.eq_def]
  | succ g => rw [parseValue.eq_def]

theorem parseElems_nil (f : Nat) : parseElems f [] = none := by
  cases f with
  | zero => rw [parseElems.eq_def]
  | succ g =>
    rw [parseElems.eq_def]
    simp [parseValue_nil]

theorem parseMembers_nil (f : Nat) : parseMembers f [] = none := by
  cases f with
  | zero => rw [parseMembers.eq_def]
  | succ g => rw [parseMembers.eq_def]

theorem parseStringBody_nil : parseStringBody [] = none := by
  rw [parseStringBody.eq_def]

/-- Extending the input past a parsed string literal does not change its
parse: the literal ends at its consumed closing quote. Also: the unconsumed
input is a suffix of the input. -/
theorem parseStringBody_ext : ∀ (n : Nat) (cs : List Char), cs.length ≤ n →
    ∀ w rest, parseStringBody cs = some (w, rest) →
      (∃ pre, cs = pre ++ rest) ∧
      ∀ tail, parseStringBody (cs ++ tail) = some (w, rest ++ tail) := by
  intro n
  induction n with
  | zero =>
    intro cs hlen w rest h
    have : cs = [] := by
      cases cs
      · rfl
      · simp at hlen
    subst this
    rw [parseStringBody_nil] at h
    cases h
  | succ m ihm =>
    intro cs hlen w rest h
    cases cs with
    | nil => rw [parseStringBody_nil] at h; cases h
    | cons c rest' =>
      by_cases h1 : c = '"'
      · subst h1
        have hh : some (([] : List Char), rest') = some (w, rest) := by
          rw [← h, parseStringBody.eq_def]
          simp
        injection hh with hh'
        have hw : ([] : List Char) = w := congrArg Prod.fst hh'
        have hr : rest' = rest := congrArg Prod.snd hh'
        subst hw
        subst hr
        refine ⟨⟨['"'], rfl⟩, ?_⟩
        intro tail
        rw [List.cons_append, parseStringBody.eq_def]
        simp
      · by_cases h2 : c = '\\'
        · subst h2
          cases rest' with
          | nil =>
            rw [parseStringBody.eq_def] at h
            simp at h
          | cons e rest2 =>
            by_cases he : e = 'u'
            · subst he
              rcases rest2 with _ | ⟨x1, _ | ⟨x2, _ | ⟨x3, _ | ⟨x4, rest3⟩⟩⟩⟩
              · rw [parseStringBody.eq_def] at h
                simp at h
              · rw [parseStringBody.eq_def] at h
                simp at h
              · rw [parseStringBody.eq_def] at h
                simp at h
              · rw [parseStringBody.eq_def] at h
                simp at h
              · rw [parseStringBody.eq_def] at h
                simp only [if_neg h1, if_pos rfl,
                  if_neg (by decide : ¬('\\' : Char) = '"')] at h
                cases hhex : hex4 x1 x2 x3 x4 with
                | none => rw [hhex] at h; simp at h
                | some nv =>
                  rw [hhex] at h
                  cases hp : parseStringBody rest3 with
                  | none => rw [hp] at h; simp at h
                  | some pr =>
                  obtain ⟨w', r'⟩ := pr
                  rw [hp] at h
                  have h' : some (Char.ofNat nv :: w', r') = some (w, rest) := h
                  injection h' with h''
                  have hw : Char.ofNat nv :: w' = w := congrArg Prod.fst h''
                  have hr : r' = rest := congrArg Prod.snd h''
                  subst hw
                  subst hr
                  obtain ⟨⟨pre', hpre⟩, hext⟩ := ihm rest3 (by simp at hlen; omega) _ _ hp
                  refine ⟨⟨'\\' :: 'u' :: x1 :: x2 :: x3 :: x4 :: pre', by simp [hpre]⟩, ?_⟩
                  intro tail
                  rw [show ('\\' :: 'u' :: x1 :: x2 :: x3 :: x4 :: rest3) ++ tail
                    = '\\' :: 'u' :: x1 :: x2 :: x3 :: x4 :: (rest3 ++ tail) from rfl]
                  rw [parseStringBody.eq_def]
                  simp only [if_neg h1, if_pos rfl,
                    if_neg (by decide : ¬('\\' : Char) = '"')]
                  rw [hhex, hext tail]
                  rfl
            · cases hesc : escCharOf e with
              | none =>
                rw [parseStringBody.eq_def] at h
                simp only [if_neg h1, if_neg he,
                  if_neg (by decide : ¬('\\' : Char) = '"'), if_pos rfl] at h
                rw [hesc] at h
                cases h
              | some c' =>
                rw [parseStringBody.eq_def] at h
                simp only [if_neg h1, if_neg he,
                  if_neg (by decide : ¬('\\' : Char) = '"'), if_pos rfl] at h
                rw [hesc] at h
                cases hp : parseStringBody rest2 with
                | none => rw [hp] at h; simp at h
                | some pr =>
                obtain ⟨w', r'⟩ := pr
                rw [hp] at h
                have h' : some (c' :: w', r') = some (w, rest) := h
                injection h' with h''
                have hw : c' :: w' = w := congrArg Prod.fst h''
                have hr : r' = rest := congrArg Prod.snd h''
                subst hw
                subst hr
                obtain ⟨⟨pre', hpre⟩, hext⟩ := ihm rest2 (by simp at hlen; omega) _ _ hp
                refine ⟨⟨'\\' :: e :: pre', by simp [hpre]⟩, ?_⟩
                intro tail
                rw [show ('\\' :: e :: rest2) ++ tail = '\\' :: e :: (rest2 ++ tail) from rfl]
                rw [parseStringBody.eq_def]
                simp only [if_neg h1, if_neg he,
                  if_neg (by decide : ¬('\\' : Char) = '"'), if_pos rfl]
                rw [hesc, hext tail]
                rfl
        · rw [parseStringBody.eq_def] at h
          simp only [if_neg h1, if_neg h2] at h
          cases hp : parseStringBody rest' with
          | none => rw [hp] at h; simp at h
          | some pr =>
          obtain ⟨w', r'⟩ := pr
          rw [hp] at h
          have h' : some (c :: w', r') = some (w, rest) := h
          injection h' with h''
          have hw : c :: w' = w := congrArg Prod.fst h''
          have hr : r' = rest := congrArg Prod.snd h''
          subst hw
          subst hr
          obtain ⟨⟨pre', hpre⟩, hext⟩ := ihm rest' (by simp at hlen; omega) _ _ hp
          refine ⟨⟨c :: pre', by simp [hpre]⟩, ?_⟩
          intro tail
          rw [List.cons_append, parseStringBody.eq_def]
          simp only [if_neg h1, if_neg h2]
          rw [hext tail]
          rfl

theorem skipWs_split (l : List Char) : l = l.takeWhile wsChar ++ skipWs l :=
  (List.takeWhile_append_dropWhile (p := wsChar) (l := l)).symm

/-- The tail that may be appended to an input whose unconsumed rest is
`rest`: when the whole input was consumed, the tail must not start with a
digit (a pending digit scan is the only way the parser looks past its
consumed input). -/
def extTailOk (rest tail : List Char) : Prop :=
  rest = [] → ∀ c, tail.head? = some c → c.isDigit = false

theorem extTailOk_of_skipWs_cons {l : List Char} {d : Char} {r : List Char}
    (h : skipWs l = d :: r) (tail : List Char) : extTailOk l tail := by
  intro h0
  subst h0
  exact absurd h (by simp [skipWs])

/-- Appending input past a successful parse does not change the result: the
parse consumes the same characters and the unconsumed rest is extended by
the appended tail. Also: the rest is a suffix of the input. -/
theorem parse_ext : ∀ f : Nat,
    (∀ cs v rest, parseValue f cs = some (v, rest) →
      (∃ pre, cs = pre ++ rest) ∧
      ∀ tail, extTailOk rest tail → parseValue f (cs ++ tail) = some (v, rest ++ tail)) ∧
    (∀ cs xs rest, parseElems f cs = some (xs, rest) →
      (∃ pre, cs = pre ++ rest) ∧
      ∀ tail, extTailOk rest tail → parseElems f (cs ++ tail) = some (xs, rest ++ tail)) ∧
    (∀ cs fs rest, parseMembers f cs = some (fs, rest) →
      (∃ pre, cs = pre ++ rest) ∧
      ∀ tail, extTailOk rest tail → parseMembers f (cs ++ tail) = some (fs, rest ++ tail)) := by
  intro f
  induction f using Nat.strong_induction_on with
  | _ f ih =>
    refine ⟨?_, ?_, ?_⟩
    · intro cs v rest h
      match f, h with
      | g + 1, h =>
        cases cs with
        | nil => rw [parseValue_nil] at h; cases h
        | cons c rest' =>
          by_cases h1 : c = '"'
          · subst h1
            rw [parseValue_quote] at h
            cases hp : parseStringBody rest' with
            | none => rw [hp] at h; cases h
            | some pr =>
              obtain ⟨w, r'⟩ := pr
              rw [hp] at h
              have h' : some (JSVal.str w, r') = some (v, rest) := h
              injection h' with h''
              have hv : JSVal.str w = v := congrArg Prod.fst h''
              have hr : rest = r' := (congrArg Prod.snd h'').symm
              subst hv
              subst hr
              obtain ⟨⟨pre', hpre⟩, hext⟩ :=
                parseStringBody_ext rest'.length rest' le_rfl _ _ hp
              refine ⟨⟨'"' :: pre', by simp [hpre]⟩, ?_⟩
              intro tail htail
              rw [List.cons_append, parseValue_quote, hext tail]
              rfl
          · by_cases h2 : c = '\x7b'
            · subst h2
              cases hs : skipWs rest' with
              | nil => rw [parseValue_lbrace, hs] at h; simp at h
              | cons d rest2 =>
                rw [parseValue_lbrace_cons g rest' hs] at h
                by_cases hd : d = '\x7d'
                · subst hd
                  rw [if_pos rfl] at h
                  have h' : some (JSVal.obj [], rest2) = some (v, rest) := h
                  injection h' with h''
                  have hv : JSVal.obj [] = v := congrArg Prod.fst h''
                  have hr : rest = rest2 := (congrArg Prod.snd h'').symm
                  subst hv
                  subst hr
                  refine ⟨⟨'\x7b' :: (rest'.takeWhile wsChar ++ ['\x7d']), by
                    conv_lhs => rw [skipWs_decomp hs]
                    simp⟩, ?_⟩
                  intro tail htail
                  rw [List.cons_append,
                    parseValue_lbrace_cons g _ (skipWs_append_cons hs), if_pos rfl]
                · rw [if_neg hd] at h
                  cases hp : parseMembers g (d :: rest2) with
                  | none => rw [hp] at h; simp at h
                  | some pr =>
                    obtain ⟨fs, r'⟩ := pr
                    rw [hp] at h
                    have h' : some (JSVal.obj fs, r') = some (v, rest) := h
                    injection h' with h''
                    have hv : JSVal.obj fs = v := congrArg Prod.fst h''
                    have hr : rest = r' := (congrArg Prod.snd h'').symm
                    subst hv
                    subst hr
                    obtain ⟨⟨pre', hpre⟩, hext⟩ := (ih g (by omega)).2.2 _ _ _ hp
                    refine ⟨⟨'\x7b' :: (rest'.takeWhile wsChar ++ pre'), by
                      conv_lhs => rw [skipWs_decomp hs]
                      rw [show (d :: rest2) = pre' ++ rest from hpre]
                      simp⟩, ?_⟩
                    intro tail htail
                    rw [List.cons_append,
                      parseValue_lbrace_cons g _ (skipWs_append_cons hs), if_neg hd]
                    have hm := hext tail htail
                    rw [show (d :: (rest2 ++ tail)) = (d :: rest2) ++ tail from rfl, hm]
                    rfl
            · by_cases h3 : c = '['
              · subst h3
                cases hs : skipWs rest' with
                | nil => rw [parseValue_lbrack, hs] at h; simp at h
                | cons d rest2 =>
                  rw [parseValue_lbrack_cons g rest' hs] at h
                  by_cases hd : d = ']'
                  · subst hd
                    rw [if_pos rfl] at h
                    have h' : some (JSVal.arr [], rest2) = some (v, rest) := h
                    injection h' with h''
                    have hv : JSVal.arr [] = v := congrArg Prod.fst h''
                    have hr : rest = rest2 := (congrArg Prod.snd h'').symm
                    subst hv
                    subst hr
                    refine ⟨⟨'[' :: (rest'.takeWhile wsChar ++ [']']), by
                      conv_lhs => rw [skipWs_decomp hs]
                      simp⟩, ?_⟩
                    intro tail htail
                    rw [List.cons_append,
                      parseValue_lbrack_cons g _ (skipWs_append_cons hs), if_pos rfl]
                  · rw [if_neg hd] at h
                    cases hp : parseElems g (d :: rest2) with
                    | none => rw [hp] at h; simp at h
                    | some pr =>
                      obtain ⟨xs, r'⟩ := pr
                      rw [hp] at h
                      have h' : some (JSVal.arr xs, r') = some (v, rest) := h
                      injection h' with h''
                      have hv : JSVal.arr xs = v := congrArg Prod.fst h''
                      have hr : rest = r' := (congrArg Prod.snd h'').symm
                      subst hv
                      subst hr
                      obtain ⟨⟨pre', hpre⟩, hext⟩ := (ih g (by omega)).2.1 _ _ _ hp
                      refine ⟨⟨'[' :: (rest'.takeWhile wsChar ++ pre'), by
                        conv_lhs => rw [skipWs_decomp hs]
                        rw [show (d :: rest2) = pre' ++ rest from hpre]
                        simp⟩, ?_⟩
                      intro tail htail
                      rw [List.cons_append,
                        parseValue_lbrack_cons g _ (skipWs_append_cons hs), if_neg hd]
                      have hm := hext tail htail
                      rw [show (d :: (rest2 ++ tail)) = (d :: rest2) ++ tail from rfl, hm]
                      rfl
              · by_cases h4 : c = 't'
                · subst h4
                  rw [parseValue_lit_t] at h
                  cases hsl : stripLit "rue".data rest' with
                  | none => rw [hsl] at h; simp at h
                  | some rest2 =>
                    rw [hsl] at h
                    have h' : some (JSVal.bool true, rest2) = some (v, rest) := h
                    injection h' with h''
                    have hv : JSVal.bool true = v := congrArg Prod.fst h''
                    have hr : rest = rest2 := (congrArg Prod.snd h'').symm
                    subst hv
                    subst hr
                    refine ⟨⟨'t' :: "rue".data, by
                      rw [show rest' = "rue".data ++ rest from stripLit_some hsl]
                      rfl⟩, ?_⟩
                    intro tail htail
                    rw [List.cons_append, parseValue_lit_t]
                    rw [show rest' ++ tail = "rue".data ++ (rest ++ tail) from by
                      rw [show rest' = "rue".data ++ rest from stripLit_some hsl]
                      simp]
                    rw [stripLit_self]
                · by_cases h5 : c = 'f'
                  · subst h5
                    rw [parseValue_lit_f] at h
                    cases hsl : stripLit "alse".data rest' with
                    | none => rw [hsl] at h; simp at h
                    | some rest2 =>
                      rw [hsl] at h
                      have h' : some (JSVal.bool false, rest2) = some (v, rest) := h
                      injection h' with h''
                      have hv : JSVal.bool false = v := congrArg Prod.fst h''
                      have hr : rest = rest2 := (congrArg Prod.snd h'').symm
                      subst hv
                      subst hr
                      refine ⟨⟨'f' :: "alse".data, by
                        rw [show rest' = "alse".data ++ rest from stripLit_some hsl]
                        rfl⟩, ?_⟩
                      intro tail htail
                      rw [List.cons_append, parseValue_lit_f]
                      rw [show rest' ++ tail = "alse".data ++ (rest ++ tail) from by
                        rw [show rest' = "alse".data ++ rest from stripLit_some hsl]
                        simp]
                      rw [stripLit_self]
                  · by_cases h6 : c = 'n'
                    · subst h6
                      rw [parseValue_lit_n] at h
                      cases hsl : stripLit "ull".data rest' with
                      | none => rw [hsl] at h; simp at h
                      | some rest2 =>
                        rw [hsl] at h
                        have h' : some (JSVal.null, rest2) = some (v, rest) := h
                        injection h' with h''
                        have hv : JSVal.null = v := congrArg Prod.fst h''
                        have hr : rest = rest2 := (congrArg Prod.snd h'').symm
                        subst hv
                        subst hr
                        refine ⟨⟨'n' :: "ull".data, by
                          rw [show rest' = "ull".data ++ rest from stripLit_some hsl]
                          rfl⟩, ?_⟩
                        intro tail htail
                        rw [List.cons_append, parseValue_lit_n]
                        rw [show rest' ++ tail = "ull".data ++ (rest ++ tail) from by
                          rw [show rest' = "ull".data ++ rest from stripLit_some hsl]
                          simp]
                        rw [stripLit_self]
                    · by_cases h7 : c = '-'
                      · subst h7
                        rw [parseValue_neg] at h
                        cases htw : rest'.takeWhile Char.isDigit with
                        | nil => rw [htw] at h; simp at h
                        | cons d0 ds =>
                          rw [htw] at h
                          have h' : some (JSVal.num (-(digitsVal (d0 :: ds) : Int)),
                              rest'.dropWhile Char.isDigit) = some (v, rest) := h
                          injection h' with h''
                          have hv : JSVal.num (-(digitsVal (d0 :: ds) : Int)) = v :=
                            congrArg Prod.fst h''
                          have hr : rest'.dropWhile Char.isDigit = rest :=
                            congrArg Prod.snd h''
                          subst hv
                          have hsplit : rest' = (d0 :: ds) ++ rest := by
                            conv_lhs => rw [← List.takeWhile_append_dropWhile
                              (p := Char.isDigit) (l := rest')]
                            rw [htw, hr]
                          have hdig : ∀ x ∈ d0 :: ds, x.isDigit = true := by
                            intro x hx
                            have hx2 : x ∈ rest'.takeWhile Char.isDigit := by
                              rw [htw]
                              exact hx
                            exact List.mem_takeWhile_imp hx2
                          refine ⟨⟨'-' :: (d0 :: ds), by rw [hsplit]; rfl⟩, ?_⟩
                          intro tail htail
                          have hgood : ∀ x, (rest ++ tail).head? = some x →
                              x.isDigit = false := by
                            intro x hx
                            cases hrest : rest with
                            | nil =>
                              rw [hrest] at hx
                              exact htail hrest x hx
                            | cons r0 rs =>
                              rw [hrest] at hx
                              have hx2 : some r0 = some x := hx
                              injection hx2 with hx3
                              rw [← hx3]
                              exact dropWhile_head_false (hr.trans hrest)
                          obtain ⟨htw2, hdw2⟩ := span_all_stop hdig hgood
                          rw [List.cons_append, parseValue_neg]
                          rw [show rest' ++ tail = (d0 :: ds) ++ (rest ++ tail) from by
                            rw [hsplit]
                            simp]
                          rw [htw2, hdw2]
                      · by_cases h8 : c.isDigit
                        · rw [parseValue_digit g rest' h8] at h
                          have h' : some (JSVal.num
                              ((digitsVal ((c :: rest').takeWhile Char.isDigit) : Nat) : Int),
                              (c :: rest').dropWhile Char.isDigit) = some (v, rest) := h
                          injection h' with h''
                          have hv : JSVal.num
                              ((digitsVal ((c :: rest').takeWhile Char.isDigit) : Nat) : Int)
                              = v := congrArg Prod.fst h''
                          have hr : (c :: rest').dropWhile Char.isDigit = rest :=
                            congrArg Prod.snd h''
                          subst hv
                          have hsplit : c :: rest'
                              = (c :: rest').takeWhile Char.isDigit ++ rest := by
                            conv_lhs => rw [← List.takeWhile_append_dropWhile
                              (p := Char.isDigit) (l := c :: rest')]
                            rw [hr]
                          have hdig : ∀ x ∈ (c :: rest').takeWhile Char.isDigit,
                              x.isDigit = true := fun x hx => List.mem_takeWhile_imp hx
                          refine ⟨⟨(c :: rest').takeWhile Char.isDigit, hsplit⟩, ?_⟩
                          intro tail htail
                          have hgood : ∀ x, (rest ++ tail).head? = some x →
                              x.isDigit = false := by
                            intro x hx
                            cases hrest : rest with
                            | nil =>
                              rw [hrest] at hx
                              exact htail hrest x hx
                            | cons r0 rs =>
                              rw [hrest] at hx
                              have hx2 : some r0 = some x := hx
                              injection hx2 with hx3
                              rw [← hx3]
                              exact dropWhile_head_false (hr.trans hrest)
                          obtain ⟨htw2, hdw2⟩ := span_all_stop hdig hgood
                          rw [List.cons_append, parseValue_digit g _ h8]
                          rw [show c :: (rest' ++ tail)
                              = (c :: rest').takeWhile Char.isDigit ++ (rest ++ tail) from by
                            conv_lhs => rw [show c :: (rest' ++ tail)
                              = (c :: rest') ++ tail from rfl, hsplit]
                            simp]
                          rw [htw2, hdw2]
                        · rw [parseValue.eq_def] at h
                          simp [h1, h2, h3, h4, h5, h6, h7, h8] at h
    · intro cs xs rest h
      match f, h with
      | g + 1, h =>
        cases hv : parseValue g cs with
        | none =>
          rw [parseElems.eq_def] at h
          simp only [hv] at h
          exact absurd h (by simp)
        | some p =>
          obtain ⟨v, r1⟩ := p
          obtain ⟨⟨preV, hpreV⟩, hextV⟩ := (ih g (by omega)).1 _ _ _ hv
          cases hs : skipWs r1 with
          | nil =>
            rw [parseElems.eq_def] at h
            simp only [hv, hs] at h
            exact absurd h (by simp)
          | cons d r2 =>
            rw [parseElems_step g hv hs] at h
            by_cases hd : d = ','
            · subst hd
              rw [if_pos rfl] at h
              cases hp : parseElems g (skipWs r2) with
              | none => rw [hp] at h; cases h
              | some p2 =>
                obtain ⟨xs2, r3⟩ := p2
                rw [hp] at h
                have h' : some (v :: xs2, r3) = some (xs, rest) := h
                injection h' with h''
                have hxs : v :: xs2 = xs := congrArg Prod.fst h''
                have hr : r3 = rest := congrArg Prod.snd h''
                subst hxs
                subst hr
                obtain ⟨⟨preE, hpreE⟩, hextE⟩ := (ih g (by omega)).2.1 _ _ _ hp
                have hr2 : ∃ e0 t0, skipWs r2 = e0 :: t0 := by
                  cases hsw : skipWs r2 with
                  | nil => rw [hsw, parseElems_nil] at hp; cases hp
                  | cons e0 t0 => exact ⟨e0, t0, rfl⟩
                obtain ⟨e0, t0, hsw2⟩ := hr2
                have hswt : ∀ tl : List Char, skipWs (r2 ++ tl) = skipWs r2 ++ tl := by
                  intro tl
                  rw [hsw2, skipWs_append_cons hsw2, List.cons_append]
                constructor
                · refine ⟨preV ++ (r1.takeWhile wsChar
                    ++ (',' :: (r2.takeWhile wsChar ++ preE))), ?_⟩
                  rw [hpreV]
                  conv_lhs => rw [skipWs_decomp hs]
                  conv_lhs => rw [skipWs_split r2]
                  rw [hpreE]
                  simp
                · intro tail htail
                  rw [parseElems_step g
                    (hextV tail (extTailOk_of_skipWs_cons hs tail))
                    (skipWs_append_cons hs), if_pos rfl, hswt tail, hextE tail htail]
                  rfl
            · rw [if_neg hd] at h
              by_cases hd2 : d = ']'
              · subst hd2
                rw [if_pos rfl] at h
                have h' : some ([v], r2) = some (xs, rest) := h
                injection h' with h''
                have hxs : [v] = xs := congrArg Prod.fst h''
                have hr : r2 = rest := congrArg Prod.snd h''
                subst hxs
                subst hr
                constructor
                · refine ⟨preV ++ (r1.takeWhile wsChar ++ [']']), ?_⟩
                  rw [hpreV]
                  conv_lhs => rw [skipWs_decomp hs]
                  simp
                · intro tail htail
                  rw [parseElems_step g
                    (hextV tail (extTailOk_of_skipWs_cons hs tail))
                    (skipWs_append_cons hs), if_neg hd, if_pos rfl]
              · rw [if_neg hd2] at h
                cases h
    · intro cs fs rest h
      match f, h with
      | g + 1, h =>
        cases cs with
        | nil => rw [parseMembers_nil] at h; cases h
        | cons c rest' =>
          by_cases h1 : c = '"'
          · subst h1
            cases hstr : parseStringBody rest' with
            | none =>
              rw [parseMembers.eq_def] at h
              simp only [hstr] at h
              exact absurd h (by simp)
            | some p =>
              obtain ⟨key, r1⟩ := p
              obtain ⟨⟨preS, hpreS⟩, hextS⟩ :=
                parseStringBody_ext rest'.length rest' le_rfl _ _ hstr
              cases hs : skipWs r1 with
              | nil =>
                rw [parseMembers.eq_def] at h
                simp only [hstr, hs] at h
                exact absurd h (by simp)
              | cons d r2 =>
                by_cases hd : d = ':'
                · subst hd
                  cases hv : parseValue g (skipWs r2) with
                  | none =>
                    rw [parseMembers.eq_def] at h
                    simp only [hstr, hs, hv] at h
                    exact absurd h (by simp)
                  | some p2 =>
                    obtain ⟨v, r3⟩ := p2
                    obtain ⟨⟨preV, hpreV⟩, hextV⟩ := (ih g (by omega)).1 _ _ _ hv
                    cases hs3 : skipWs r3 with
                    | nil =>
                      rw [parseMembers.eq_def] at h
                      simp only [hstr, hs, hv, hs3] at h
                      exact absurd h (by simp)
                    | cons e r4 =>
                      rw [parseMembers_step g rest' hstr hs hv hs3] at h
                      have hr2 : ∃ e0 t0, skipWs r2 = e0 :: t0 := by
                        cases hsw : skipWs r2 with
                        | nil => rw [hsw, parseValue_nil] at hv; cases hv
                        | cons e0 t0 => exact ⟨e0, t0, rfl⟩
                      obtain ⟨e0, t0, hsw2⟩ := hr2
                      have hswt : ∀ tl : List Char,
                          skipWs (r2 ++ tl) = skipWs r2 ++ tl := by
                        intro tl
                        rw [hsw2, skipWs_append_cons hsw2, List.cons_append]
                      by_cases he : e = ','
                      · subst he
                        rw [if_pos rfl] at h
                        cases hp : parseMembers g (skipWs r4) with
                        | none => rw [hp] at h; cases h
                        | some p3 =>
                          obtain ⟨fs2, r5⟩ := p3
                          rw [hp] at h
                          have h' : some ((key, v) :: fs2, r5) = some (fs, rest) := h
                          injection h' with h''
                          have hfs : (key, v) :: fs2 = fs := congrArg Prod.fst h''
                          have hr : r5 = rest := congrArg Prod.snd h''
                          subst hfs
                          subst hr
                          obtain ⟨⟨preM, hpreM⟩, hextM⟩ := (ih g (by omega)).2.2 _ _ _ hp
                          have hr4 : ∃ e1 t1, skipWs r4 = e1 :: t1 := by
                            cases hsw : skipWs r4 with
                            | nil => rw [hsw, parseMembers_nil] at hp; cases hp
                            | cons e1 t1 => exact ⟨e1, t1, rfl⟩
                          obtain ⟨e1, t1, hsw4⟩ := hr4
                          have hswt4 : ∀ tl : List Char,
                              skipWs (r4 ++ tl) = skipWs r4 ++ tl := by
                            intro tl
                            rw [hsw4, skipWs_append_cons hsw4, List.cons_append]
                          constructor
                          · refine ⟨'"' :: (preS ++ (r1.takeWhile wsChar
                              ++ (':' :: (r2.takeWhile wsChar
                              ++ (preV ++ (r3.takeWhile wsChar
                              ++ (',' :: (r4.takeWhile wsChar ++ preM)))))))), ?_⟩
                            rw [hpreS]
                            conv_lhs => rw [skipWs_decomp hs]
                            conv_lhs => rw [skipWs_split r2]
                            rw [hpreV]
                            conv_lhs => rw [skipWs_decomp hs3]
                            conv_lhs => rw [skipWs_split r4]
                            rw [hpreM]
                            simp
                          · intro tail htail
                            rw [List.cons_append,
                              parseMembers_step g (rest' ++ tail) (hextS tail)
                                (skipWs_append_cons hs)
                                (by
                                  rw [hswt tail]
                                  exact hextV tail (extTailOk_of_skipWs_cons hs3 tail))
                                (skipWs_append_cons hs3),
                              if_pos rfl, hswt4 tail, hextM tail htail]
                            rfl
                      · rw [if_neg he] at h
                        by_cases he2 : e = '\x7d'
                        · subst he2
                          rw [if_pos rfl] at h
                          have h' : some ([(key, v)], r4) = some (fs, rest) := h
                          injection h' with h''
                          have hfs : [(key, v)] = fs := congrArg Prod.fst h''
                          have hr : r4 = rest := congrArg Prod.snd h''
                          subst hfs
                          subst hr
                          constructor
                          · refine ⟨'"' :: (preS ++ (r1.takeWhile wsChar
                              ++ (':' :: (r2.takeWhile wsChar
                              ++ (preV ++ (r3.takeWhile wsChar ++ ['\x7d'])))))), ?_⟩
                            rw [hpreS]
                            conv_lhs => rw [skipWs_decomp hs]
                            conv_lhs => rw [skipWs_split r2]
                            rw [hpreV]
                            conv_lhs => rw [skipWs_decomp hs3]
                            simp
                          · intro tail htail
                            rw [List.cons_append,
                              parseMembers_step g (rest' ++ tail) (hextS tail)
                                (skipWs_append_cons hs)
                                (by
                                  rw [hswt tail]
                                  exact hextV tail (extTailOk_of_skipWs_cons hs3 tail))
                                (skipWs_append_cons hs3),
                              if_neg he, if_pos rfl]
                        · rw [if_neg he2] at h
                          cases h
                · rw [parseMembers.eq_def] at h
                  simp only [hstr, hs] at h
                  rw [if_neg hd] at h
                  exact absurd h (by simp)
          · rw [parseMembers.eq_def] at h
            simp only [] at h
            rw [if_neg h1] at h
            exact absurd h (by simp)

/-!
## The review route JSON extractor (part_000, extractJSON)

The route decodes the model response with four strategies in order: direct
parse of the trimmed text, the first fenced code block, the first greedy
brace/bracket span, and a labeled-key heuristic.
-/

/-- The fence delimiter of a markdown code block. -/
def fencePat : List Char := ['`', '`', '`']

/-- First occurrence of `pat` as a regex literal would find it: the text
before the occurrence and the text after it. -/
def fenceSplit (pat : List Char) : List Char → Option (List Char × List Char)
  | [] =>
    (match stripLit pat [] with
     | some rest => some ([], rest)
     | none => none)
  | c :: t =>
    (match stripLit pat (c :: t) with
     | some rest => some ([], rest)
     | none => (fenceSplit pat t).map (fun p => (c :: p.1, p.2)))

/-- Drop trailing white space (the lazy group gives back the white space
that the following greedy span can absorb). -/
def rtrim (s : List Char) : List Char :=
  (s.reverse.dropWhile jsWsChar).reverse

/-- Group 1 of the fenced-code-block pattern of strategy 2: after the first
fence, an optional `json` tag and white space are skipped; the group runs
lazily up to the white space before the next fence. `none` when the text
holds no complete fenced block. -/
def fenceGroup (text : List Char) : Option (List Char) :=
  match fenceSplit fencePat text with
  | none => none
  | some (_, aft) =>
    let rest1 := match stripLit "json".data aft with
      | some r => r
      | none => aft
    let rest2 := rest1.dropWhile jsWsChar
    match fenceSplit fencePat rest2 with
    | none => none
    | some (mid, _) => some (rtrim mid)

/-- The input up to and including the last occurrence of `ch`, `none` when
`ch` does not occur (the greedy span of strategy 3). -/
def upToLast (ch : Char) (t : List Char) : Option (List Char) :=
  let r := t.reverse.dropWhile (fun c => c != ch)
  if r.isEmpty then none else some r.reverse

/-- Group 1 of the object pattern of strategy 3: from the first opening
brace (or bracket) greedily to the last closing brace (or bracket). -/
def objectMatch : List Char → Option (List Char)
  | [] => none
  | c :: t =>
    if c = '\x7b' then
      match upToLast '\x7d' t with
      | some body => some ('\x7b' :: body)
      | none => objectMatch t
    else if c = '[' then
      match upToLast ']' t with
      | some body => some ('[' :: body)
      | none => objectMatch t
    else objectMatch t

/-- The input up to and including the first occurrence of `ch`. -/
def upToFirst (ch : Char) (t : List Char) : Option (List Char) :=
  match t.dropWhile (fun c => c != ch) with
  | [] => none
  | _ :: _ => some (t.takeWhile (fun c => c != ch) ++ [ch])

/-- The first lazy brace span: from the first opening brace to the first
closing brace after it. -/
def firstBraceChunk (t : List Char) : Option (List Char) :=
  match t.dropWhile (fun c => c != '\x7b') with
  | [] => none
  | _ :: u => (upToFirst '\x7d' u).map (fun body => '\x7b' :: body)

/-- One of the four quoted review keys at the head of the input, stripped. -/
def stripKey (cs : List Char) : Option (List Char) :=
  match stripLit "\"summary\"".data cs with
  | some r => some r
  | none =>
    match stripLit "\"comments\"".data cs with
    | some r => some r
    | none =>
      match stripLit "\"patches\"".data cs with
      | some r => some r
      | none => stripLit "\"testCases\"".data cs

/-- Group 1 of the labeled-section pattern of strategy 4: after a review
key, white space and a colon, the first lazy brace span. -/
def labeledMatch : List Char → Option (List Char)
  | [] => none
  | c :: t =>
    match stripKey (c :: t) with
    | some a =>
      (match a.dropWhile jsWsChar with
       | ':' :: a3 =>
         (match firstBraceChunk a3 with
          | some g => some g
          | none => labeledMatch t)
       | _ => labeledMatch t)
    | none => labeledMatch t

/-- The final error of the extractor. -/
def extractErr : List Char :=
  "Could not extract valid JSON from response after multiple attempts".data

/-- Strategy 4 of the extractor: parse the labeled brace span. -/
def labeledStrategy (text : List Char) : Except (List Char) JSVal :=
  match labeledMatch text with
  | some g =>
    (match parseTop g with
     | some v => .ok v
     | none => .error extractErr)
  | none => .error extractErr

/-- Strategies 3 and 4 of the extractor: parse the greedy brace span, then
fall through to the labeled strategy. -/
def objectStrategy (text : List Char) : Except (List Char) JSVal :=
  match objectMatch text with
  | some m =>
    (match parseTop m with
     | some v => .ok v
     | none => labeledStrategy text)
  | none => labeledStrategy text

/-- Strategies 2 to 4 of the extractor: parse the trimmed fenced group when
it is non-empty, then fall through to the later strategies. -/
def fencedStrategy (text : List Char) : Except (List Char) JSVal :=
  match fenceGroup text with
  | some g =>
    if g.isEmpty then objectStrategy text
    else
      match parseTop (jsTrim g) with
      | some v => .ok v
      | none => objectStrategy text
  | none => objectStrategy text

/-- The route's `extractJSON`: reject empty input, then try a direct parse
of the trimmed text, then the fallback strategies in order. -/
def extractJSON (text : List Char) : Except (List Char) JSVal :=
  if text.isEmpty then .error "Invalid input: expected string".data
  else if (jsTrim text).isEmpty then .error "Empty text provided".data
  else
    match parseTop (jsTrim text) with
    | some v => .ok v
    | none => fencedStrategy text

/-- A serialized value wrapped in a fenced markdown code block. -/
def fenceWrap (s : List Char) : List Char :=
  fencePat ++ ("json".data ++ ('\n' :: (s ++ ('\n' :: fencePat))))

/-!
## Facts about the extractor's parts
-/

theorem fenceSplit_here {pat cs rest : List Char} (h : stripLit pat cs = some rest) :
    fenceSplit pat cs = some ([], rest) := by
  cases cs with
  | nil => rw [fenceSplit.eq_def]; simp [h]
  | cons c t => rw [fenceSplit.eq_def]; simp [h]

theorem fenceSplit_skip {pat : List Char} {c : Char} {t : List Char}
    (h : stripLit pat (c :: t) = none) :
    fenceSplit pat (c :: t) = (fenceSplit pat t).map (fun p => (c :: p.1, p.2)) := by
  rw [fenceSplit.eq_def]
  simp [h]

theorem fenceSplit_eq_some : ∀ {cs : List Char} {pat mid aft : List Char},
    fenceSplit pat cs = some (mid, aft) → cs = mid ++ (pat ++ aft) := by
  intro cs
  induction cs with
  | nil =>
    intro pat mid aft h
    cases hsl : stripLit pat [] with
    | none => rw [fenceSplit.eq_def, hsl] at h; cases h
    | some rest =>
      rw [fenceSplit.eq_def, hsl] at h
      have h' : some (([] : List Char), rest) = some (mid, aft) := h
      injection h' with h''
      have h1 : ([] : List Char) = mid := congrArg Prod.fst h''
      have h2 : rest = aft := congrArg Prod.snd h''
      rw [← h1, ← h2]
      simpa using stripLit_some hsl
  | cons c t ih =>
    intro pat mid aft h
    cases hsl : stripLit pat (c :: t) with
    | some rest =>
      rw [fenceSplit_here hsl] at h
      have h' : some (([] : List Char), rest) = some (mid, aft) := h
      injection h' with h''
      have h1 : ([] : List Char) = mid := congrArg Prod.fst h''
      have h2 : rest = aft := congrArg Prod.snd h''
      rw [← h1, ← h2]
      simpa using stripLit_some hsl
    | none =>
      rw [fenceSplit_skip hsl] at h
      cases hfs : fenceSplit pat t with
      | none => rw [hfs] at h; cases h
      | some p =>
        obtain ⟨m, a⟩ := p
        rw [hfs] at h
        have h' : some (c :: m, a) = some (mid, aft) := h
        injection h' with h''
        have h1 : c :: m = mid := congrArg Prod.fst h''
        have h2 : a = aft := congrArg Prod.snd h''
        rw [← h1, ← h2, ih hfs]
        rfl

theorem fenceSplit_app_ne_none : ∀ (X : List Char) {pat Y : List Char},
    fenceSplit pat (X ++ (pat ++ Y)) ≠ none := by
  intro X
  induction X with
  | nil =>
    intro pat Y h
    rw [show ([] : List Char) ++ (pat ++ Y) = pat ++ Y from rfl,
      fenceSplit_here (stripLit_self pat Y)] at h
    cases h
  | cons c t ih =>
    intro pat Y h
    cases hsl : stripLit pat (c :: (t ++ (pat ++ Y))) with
    | some rest =>
      rw [List.cons_append, fenceSplit_here hsl] at h
      cases h
    | none =>
      rw [List.cons_append, fenceSplit_skip hsl] at h
      cases hfs : fenceSplit pat (t ++ (pat ++ Y)) with
      | none => exact ih hfs
      | some p => rw [hfs] at h; cases h

theorem rtrim_cons_of_neg {c : Char} (h : jsWsChar c = false) (t : List Char) :
    rtrim (c :: t) = c :: rtrim t := by
  unfold rtrim
  rw [List.reverse_cons, List.dropWhile_append]
  by_cases he : (t.reverse.dropWhile jsWsChar).isEmpty
  · rw [if_pos he]
    have h0 : t.reverse.dropWhile jsWsChar = [] := by simpa using he
    rw [h0, List.dropWhile_cons_of_neg (by simp [h])]
    rfl
  · rw [if_neg he]
    simp

theorem rtrim_eq_append (t : List Char) :
    ∃ w, t = rtrim t ++ w ∧ ∀ c ∈ w, jsWsChar c = true := by
  refine ⟨(t.reverse.takeWhile jsWsChar).reverse, ?_, ?_⟩
  · have h1 : t.reverse = t.reverse.takeWhile jsWsChar ++ t.reverse.dropWhile jsWsChar :=
      (List.takeWhile_append_dropWhile (p := jsWsChar) (l := t.reverse)).symm
    calc t = t.reverse.reverse := (List.reverse_reverse t).symm
      _ = (t.reverse.takeWhile jsWsChar ++ t.reverse.dropWhile jsWsChar).reverse := by
          rw [← h1]
      _ = rtrim t ++ (t.reverse.takeWhile jsWsChar).reverse := by
          rw [List.reverse_append]
          rfl
  · intro c hc
    rw [List.mem_reverse] at hc
    exact List.mem_takeWhile_imp hc

theorem rtrim_getLast_not_ws (t : List Char) :
    ∀ c, (rtrim t).getLast? = some c → jsWsChar c = false := by
  intro c hc
  unfold rtrim at hc
  rw [List.getLast?_reverse] at hc
  cases hd : t.reverse.dropWhile jsWsChar with
  | nil => rw [hd] at hc; cases hc
  | cons a u =>
    rw [hd] at hc
    have h' : some a = some c := hc
    injection h' with h''
    rw [← h'']
    exact dropWhile_head_false hd

theorem rtrim_append_ws {w : List Char} (hw : ∀ c ∈ w, jsWsChar c = true) (s : List Char) :
    rtrim (s ++ w) = rtrim s := by
  unfold rtrim
  rw [List.reverse_append, List.dropWhile_append]
  have h0 : w.reverse.dropWhile jsWsChar = [] :=
    List.dropWhile_eq_nil_iff.mpr (by
      intro x hx
      simp [hw x (List.mem_reverse.mp hx)])
  rw [h0]
  simp

theorem rtrim_eq_self {s : List Char}
    (h : ∀ c, s.getLast? = some c → jsWsChar c = false) : rtrim s = s := by
  unfold rtrim
  cases hr : s.reverse with
  | nil =>
    simp [List.reverse_eq_nil_iff.mp hr]
  | cons a u =>
    have ha : s.getLast? = some a := by rw [← List.head?_reverse, hr]; rfl
    rw [List.dropWhile_cons_of_neg (by simp [h a ha]), ← hr, List.reverse_reverse]

theorem parseTop_strV (v : JSVal) : parseTop (strV v) = some v := by
  obtain ⟨c, t, hct, hsc⟩ := strV_head v
  obtain ⟨hws, -, -, -, -⟩ := startChar_facts hsc
  have hskip : skipWs (strV v) = strV v := by rw [hct]; exact skipWs_cons_neg hws t
  unfold parseTop
  rw [hskip]
  have hrt := (parse_roundtrip ((strV v).length + 1)).1 v [] (by omega) goodRest_nil
  rw [List.append_nil] at hrt
  rw [hrt]
  rfl

theorem jsTrim_strV (v : JSVal) : jsTrim (strV v) = strV v := by
  obtain ⟨c, t, hct, hsc⟩ := strV_head v
  obtain ⟨-, hjws, -, -, -⟩ := startChar_facts hsc
  obtain ⟨e, he, hee⟩ := strV_last v
  refine jsTrim_eq_self ?_ ?_
  · intro x hx
    rw [hct] at hx
    have h' : some c = some x := hx
    injection h' with h''
    rw [← h'']
    exact hjws
  · intro x hx
    rw [he] at hx
    injection hx with h''
    rw [← h'']
    exact endChar_facts hee

theorem parseValue_btick (f : Nat) (rest : List Char) :
    parseValue (f + 1) ('`' :: rest) = none := by
  have h1 : ¬('`' : Char) = '"' := by decide
  have h2 : ¬('`' : Char) = '\x7b' := by decide
  have h3 : ¬('`' : Char) = '[' := by decide
  have h4 : ¬('`' : Char) = 't' := by decide
  have h5 : ¬('`' : Char) = 'f' := by decide
  have h6 : ¬('`' : Char) = 'n' := by decide
  have h7 : ¬('`' : Char) = '-' := by decide
  have h8 : ('`' : Char).isDigit = false := by decide
  rw [parseValue.eq_def]
  simp [h1, h2, h3, h4, h5, h6, h7, h8]

theorem parseTop_cons_btick (rest : List Char) : parseTop ('`' :: rest) = none := by
  unfold parseTop
  rw [skipWs_cons_neg (by decide) rest, parseValue_btick]

theorem upToLast_spec (ch : Char) (Z w : List Char) (hw : ∀ c ∈ w, (c != ch) = true) :
    upToLast ch ((Z ++ [ch]) ++ w) = some (Z ++ [ch]) := by
  unfold upToLast
  have hrev : ((Z ++ [ch]) ++ w).reverse = w.reverse ++ (ch :: Z.reverse) := by simp
  rw [hrev]
  have hwr : ∀ c ∈ w.reverse, (c != ch) = true :=
    fun c hc => hw c (List.mem_reverse.mp hc)
  have hdw := @span_all_stop (fun c => c != ch) w.reverse (ch :: Z.reverse) hwr (by
    intro x hx
    have h' : some ch = some x := hx
    injection h' with h''
    rw [← h'']
    simp)
  rw [hdw.2]
  simp

theorem objectMatch_append_skip :
    ∀ (pre : List Char), (∀ c ∈ pre, ¬c = '\x7b' ∧ ¬c = '[') →
    ∀ t, objectMatch (pre ++ t) = objectMatch t := by
  intro pre
  induction pre with
  | nil => intro _ t; rfl
  | cons c p ih =>
    intro hpre t
    obtain ⟨h1, h2⟩ := hpre c (List.mem_cons_self c p)
    rw [List.cons_append, objectMatch.eq_def]
    simp only [if_neg h1, if_neg h2]
    exact ih (fun x hx => hpre x (List.mem_cons_of_mem c hx)) t

theorem objectMatch_lbrace {t body : List Char} (h : upToLast '\x7d' t = some body) :
    objectMatch ('\x7b' :: t) = some ('\x7b' :: body) := by
  rw [objectMatch.eq_def]
  simp [h]

/-- Parsing a strict prefix of a serialized object fails: the parse would
extend over the appended rest of the serialization. -/
theorem parseTop_prefix_none {fs : List (List Char × JSVal)} {g tail0 : List Char}
    (hsplit : strV (.obj fs) = g ++ tail0)
    (ht : ∀ c, tail0.head? = some c → c.isDigit = false)
    (htn : tail0 ≠ [])
    (hskip : skipWs g = g) :
    parseTop g = none := by
  cases hpt : parseTop g with
  | none => rfl
  | some Y =>
    exfalso
    unfold parseTop at hpt
    rw [hskip] at hpt
    cases hpv : parseValue (g.length + 1) g with
    | none => rw [hpv] at hpt; cases hpt
    | some p =>
      obtain ⟨Z, r⟩ := p
      obtain ⟨-, hext⟩ := (parse_ext (g.length + 1)).1 _ _ _ hpv
      have hex := hext tail0 (fun _ => ht)
      have hlen : g.length + 1 ≤ (strV (JSVal.obj fs)).length + 1 := by
        rw [hsplit]
        simp
      have hmono := parseValue_mono hlen hex
      rw [← hsplit] at hmono
      have hrt := (parse_roundtrip ((strV (JSVal.obj fs)).length + 1)).1
        (JSVal.obj fs) [] (by omega) goodRest_nil
      rw [List.append_nil] at hrt
      rw [hrt] at hmono
      have h' : some (JSVal.obj fs, ([] : List Char)) = some (Z, r ++ tail0) := hmono
      injection h' with h''
      have h2 : ([] : List Char) = r ++ tail0 := congrArg Prod.snd h''
      exact htn (List.append_eq_nil.mp h2.symm).2

/-- Direct round trip through the extractor: a serialized value is decoded
by strategy 1. -/
theorem extractJSON_strV (v : JSVal) : extractJSON (strV v) = .ok v := by
  obtain ⟨c, t, hct, -⟩ := strV_head v
  have hne : (strV v).isEmpty = false := by rw [hct]; rfl
  have htr : jsTrim (strV v) = strV v := jsTrim_strV v
  unfold extractJSON
  rw [htr, hne, if_neg (by simp), if_neg (by simp), parseTop_strV]

/-- Fenced round trip through the extractor: a serialized object wrapped in
a fenced code block is decoded, by strategy 2 when the serialization holds
no fence of its own, and by strategy 3 otherwise. -/
theorem extractJSON_fenceWrap_obj (fs : List (List Char × JSVal)) :
    extractJSON (fenceWrap (strV (JSVal.obj fs))) = .ok (JSVal.obj fs) := by
  have hs_obj : strV (JSVal.obj fs) = '\x7b' :: (strMembers fs ++ ['\x7d']) := strV_obj fs
  obtain ⟨e, he, hee⟩ := strV_last (JSVal.obj fs)
  have hTcons : fenceWrap (strV (JSVal.obj fs))
      = '`' :: ('`' :: ('`' :: ("json".data
        ++ ('\n' :: (strV (JSVal.obj fs) ++ ('\n' :: fencePat)))))) := rfl
  have hTne : (fenceWrap (strV (JSVal.obj fs))).isEmpty = false := by rw [hTcons]; rfl
  have hTsplit : fenceWrap (strV (JSVal.obj fs))
      = (fencePat ++ ("json".data
        ++ ('\n' :: (strV (JSVal.obj fs) ++ ['\n', '`', '`'])))) ++ ['`'] := by
    simp [fenceWrap, fencePat]
  have hTlast : (fenceWrap (strV (JSVal.obj fs))).getLast? = some '`' := by
    rw [hTsplit]
    exact List.getLast?_concat _
  have hTtrim : jsTrim (fenceWrap (strV (JSVal.obj fs)))
      = fenceWrap (strV (JSVal.obj fs)) := by
    refine jsTrim_eq_self ?_ ?_
    · intro x hx
      rw [hTcons] at hx
      have h' : some '`' = some x := hx
      injection h' with h''
      rw [← h'']
      decide
    · intro x hx
      rw [hTlast] at hx
      injection hx with h''
      rw [← h'']
      decide
  have hTpt : parseTop (fenceWrap (strV (JSVal.obj fs))) = none := by
    rw [hTcons]
    exact parseTop_cons_btick _
  have hstep1 : extractJSON (fenceWrap (strV (JSVal.obj fs)))
      = fencedStrategy (fenceWrap (strV (JSVal.obj fs))) := by
    unfold extractJSON
    rw [hTtrim, hTne, if_neg (by simp), if_neg (by simp), hTpt]
  have e1 : fenceSplit fencePat (fenceWrap (strV (JSVal.obj fs)))
      = some ([], "json".data ++ ('\n' :: (strV (JSVal.obj fs) ++ ('\n' :: fencePat)))) :=
    fenceSplit_here (stripLit_self fencePat _)
  have e2 : stripLit "json".data
      ("json".data ++ ('\n' :: (strV (JSVal.obj fs) ++ ('\n' :: fencePat))))
      = some ('\n' :: (strV (JSVal.obj fs) ++ ('\n' :: fencePat))) :=
    stripLit_self _ _
  have e3 : ('\n' :: (strV (JSVal.obj fs) ++ ('\n' :: fencePat))).dropWhile jsWsChar
      = strV (JSVal.obj fs) ++ ('\n' :: fencePat) := by
    rw [List.dropWhile_cons_of_pos (by decide)]
    rw [hs_obj, List.cons_append, List.dropWhile_cons_of_neg (by decide)]
  cases hfs : fenceSplit fencePat (strV (JSVal.obj fs) ++ ('\n' :: fencePat)) with
  | none =>
    exfalso
    rw [show strV (JSVal.obj fs) ++ ('\n' :: fencePat)
        = (strV (JSVal.obj fs) ++ ['\n']) ++ (fencePat ++ []) from by simp] at hfs
    exact fenceSplit_app_ne_none _ hfs
  | some p =>
    obtain ⟨mid, aft⟩ := p
    have hfg : fenceGroup (fenceWrap (strV (JSVal.obj fs))) = some (rtrim mid) := by
      simp only [fenceGroup, e1, e2, e3, hfs]
    have hsome := fenceSplit_eq_some hfs
    cases aft with
    | nil =>
      have hmid : mid = strV (JSVal.obj fs) ++ ['\n'] := by
        have h1 : (strV (JSVal.obj fs) ++ ['\n']) ++ fencePat = mid ++ fencePat := by
          rw [List.append_assoc]
          simpa using hsome
        exact (List.append_cancel_right h1).symm
      have hrt : rtrim mid = strV (JSVal.obj fs) := by
        rw [hmid, rtrim_append_ws (w := ['\n']) (by decide)]
        exact rtrim_eq_self (fun x hx => by
          rw [he] at hx
          injection hx with h''
          rw [← h'']
          exact endChar_facts hee)
      have hisE : (strV (JSVal.obj fs)).isEmpty = false := by rw [hs_obj]; rfl
      have hstep2 : fencedStrategy (fenceWrap (strV (JSVal.obj fs)))
          = Except.ok (JSVal.obj fs) := by
        simp [fencedStrategy, hfg, hrt, hisE, jsTrim_strV, parseTop_strV]
      rw [hstep1, hstep2]
    | cons a aft2 =>
      have hml : mid.length ≤ (strV (JSVal.obj fs)).length := by
        have hlen := congrArg List.length hsome
        simp [fencePat] at hlen
        omega
      have hpre : (strV (JSVal.obj fs)).take mid.length = mid := by
        have h1 := congrArg (List.take mid.length) hsome
        rw [List.take_append_of_le_length hml,
          show (mid ++ (fencePat ++ a :: aft2)).take mid.length = mid from
            List.take_left mid (fencePat ++ a :: aft2)] at h1
        exact h1
      have hdec : strV (JSVal.obj fs) = mid ++ (strV (JSVal.obj fs)).drop mid.length := by
        conv_lhs => rw [← List.take_append_drop mid.length (strV (JSVal.obj fs))]
        rw [hpre]
      have hcancel : (strV (JSVal.obj fs)).drop mid.length ++ ('\n' :: fencePat)
          = fencePat ++ (a :: aft2) := by
        have h2 : mid ++ ((strV (JSVal.obj fs)).drop mid.length ++ ('\n' :: fencePat))
            = mid ++ (fencePat ++ (a :: aft2)) := by
          rw [← List.append_assoc, ← hdec]
          exact hsome
        exact List.append_cancel_left h2
      cases hdropc : (strV (JSVal.obj fs)).drop mid.length with
      | nil =>
        exfalso
        rw [hdropc] at hcancel
        have h' : ('\n' :: fencePat) = '`' :: ('`' :: ('`' :: (a :: aft2))) := hcancel
        have h1 : '\n' = '`' := congrArg (fun l => List.headD l ' ') h'
        exact absurd h1 (by decide)
      | cons b srest =>
        have hb : b = '`' := by
          rw [hdropc] at hcancel
          have h' : (b :: (srest ++ ('\n' :: fencePat)))
              = '`' :: ('`' :: ('`' :: (a :: aft2))) := hcancel
          exact congrArg (fun l => List.headD l ' ') h'
        cases mid with
        | nil =>
          exfalso
          rw [hdropc] at hdec
          rw [hs_obj] at hdec
          have h' : ('\x7b' :: (strMembers fs ++ ['\x7d'])) = b :: srest := hdec
          have h1 : '\x7b' = b := congrArg (fun l => List.headD l ' ') h'
          rw [hb] at h1
          exact absurd h1 (by decide)
        | cons m0 mtail =>
          have hm0 : m0 = '\x7b' := by
            rw [hdropc] at hdec
            rw [hs_obj] at hdec
            have h' : ('\x7b' :: (strMembers fs ++ ['\x7d']))
                = m0 :: (mtail ++ (b :: srest)) := hdec
            exact (congrArg (fun l => List.headD l ' ') h').symm
          subst hm0
          obtain ⟨w, hw_eq, hw_ws⟩ := rtrim_eq_append ('\x7b' :: mtail)
          have hrt_cons : rtrim ('\x7b' :: mtail) = '\x7b' :: rtrim mtail :=
            rtrim_cons_of_neg (by decide) mtail
          have hgne : (rtrim ('\x7b' :: mtail)).isEmpty = false := by
            rw [hrt_cons]
            rfl
          have hgskip : skipWs (rtrim ('\x7b' :: mtail)) = rtrim ('\x7b' :: mtail) := by
            rw [hrt_cons]
            exact skipWs_cons_neg (by decide) _
          have hgtrim : jsTrim (rtrim ('\x7b' :: mtail)) = rtrim ('\x7b' :: mtail) := by
            refine jsTrim_eq_self ?_ (rtrim_getLast_not_ws ('\x7b' :: mtail))
            intro x hx
            rw [hrt_cons] at hx
            have h' : some '\x7b' = some x := hx
            injection h' with h''
            rw [← h'']
            decide
          have hsplit : strV (JSVal.obj fs)
              = rtrim ('\x7b' :: mtail) ++ (w ++ (b :: srest)) := by
            conv_rhs => rw [← List.append_assoc, ← hw_eq]
            rw [hdec, hdropc]
          have hptg : parseTop (rtrim ('\x7b' :: mtail)) = none := by
            refine parseTop_prefix_none hsplit ?_ ?_ hgskip
            · intro c hc
              cases hwcase : w with
              | nil =>
                rw [hwcase] at hc
                have h' : some b = some c := hc
                injection h' with h''
                rw [← h'', hb]
                decide
              | cons w0 wrest =>
                rw [hwcase] at hc
                have h' : some w0 = some c := hc
                injection h' with h''
                rw [← h'']
                have hw0 : jsWsChar w0 = true := hw_ws w0 (by
                  rw [hwcase]
                  exact List.mem_cons_self w0 wrest)
                cases hd : w0.isDigit
                · rfl
                · exact absurd (isDigit_not_jsWsChar hd) (by simp [hw0])
            · intro h0
              exact absurd (List.append_eq_nil.mp h0).2 (by simp)
          have hT2 : fenceWrap (strV (JSVal.obj fs))
              = ['`', '`', '`', 'j', 's', 'o', 'n', '\n']
                ++ ('\x7b' :: ((strMembers fs ++ ['\x7d']) ++ ('\n' :: fencePat))) := by
            rw [hTcons, hs_obj]
            rfl
          have hom : objectMatch (fenceWrap (strV (JSVal.obj fs)))
              = some (strV (JSVal.obj fs)) := by
            rw [hT2, objectMatch_append_skip _ (by decide) _,
              objectMatch_lbrace (upToLast_spec '\x7d' (strMembers fs)
                ('\n' :: fencePat) (by decide)), hs_obj]
          have hstep2 : fencedStrategy (fenceWrap (strV (JSVal.obj fs)))
              = objectStrategy (fenceWrap (strV (JSVal.obj fs))) := by
            simp [fencedStrategy, hfg, hgne, hgtrim, hptg]
          have hstep3 : objectStrategy (fenceWrap (strV (JSVal.obj fs)))
              = Except.ok (JSVal.obj fs) := by
            simp [objectStrategy, hom, parseTop_strV]
          rw [hstep1, hstep2, hstep3]

/-- C7: decoder round trip. For any JSON object X, extractJSON of the
serialization of X returns X (strategy 1, the direct parse of the trimmed
text), and extractJSON of the serialization wrapped in a fenced code block
(three backticks, a json tag, a newline, the serialization, a newline and
three closing backticks) also returns X. -/
theorem claim_C7 (fs : List (List Char × JSVal)) :
    extractJSON (strV (JSVal.obj fs)) = .ok (JSVal.obj fs) ∧
    extractJSON (fenceWrap (strV (JSVal.obj fs))) = .ok (JSVal.obj fs) :=
  ⟨extractJSON_strV (JSVal.obj fs), extractJSON_fenceWrap_obj fs⟩

/-- C8: decoder strategy precedence. For any text whose trimmed form parses
directly as JSON value X, while the text also holds a fenced code block
whose trimmed group parses as a different JSON value Y, extractJSON returns
X (strategy 1 wins) and never the fenced block's Y. -/
theorem claim_C8 (text g : List Char) (X Y : JSVal)
    (h1 : parseTop (jsTrim text) = some X)
    (hg : fenceGroup text = some g)
    (hY : parseTop (jsTrim g) = some Y)
    (hXY : Y ≠ X) :
    extractJSON text = .ok X ∧ extractJSON text ≠ .ok Y := by
  have hne : text.isEmpty = false := by
    cases htext : text with
    | nil =>
      rw [htext, show jsTrim ([] : List Char) = [] from rfl,
        show parseTop ([] : List Char) = none from rfl] at h1
      cases h1
    | cons a t => rfl
  have htrne : (jsTrim text).isEmpty = false := by
    cases hjt : jsTrim text with
    | nil =>
      rw [hjt, show parseTop ([] : List Char) = none from rfl] at h1
      cases h1
    | cons a t => rfl
  have hmain : extractJSON text = .ok X := by
    unfold extractJSON
    rw [hne, if_neg (by simp), htrne, if_neg (by simp), h1]
  refine ⟨hmain, ?_⟩
  rw [hmain]
  intro hc
  injection hc with h'
  exact hXY h'.symm

theorem claim_C8_witness :
    extractJSON "\x7b\"a\": \"```json 2 ```\"\x7d".data
      = .ok (JSVal.obj [("a".data, JSVal.str "```json 2 ```".data)]) ∧
    extractJSON "\x7b\"a\": \"```json 2 ```\"\x7d".data ≠ .ok (JSVal.num 2) :=
  claim_C8 "\x7b\"a\": \"```json 2 ```\"\x7d".data "2".data
    (JSVal.obj [("a".data, JSVal.str "```json 2 ```".data)]) (JSVal.num 2)
    (by rfl) (by rfl) (by rfl) (by simp)

end PRReviewer



